import Mathlib

/-!
Verification of the TreeKEM / messages core of the mlspp repository.

The C++ sources `src/treekem.cpp` and `src/messages.cpp` are embedded
shallowly: machine integers become `Nat`, byte strings become `List Nat`,
`std::map` becomes an association list, fallible operations return an
explicit error component, and the cryptographic primitives (HPKE, HKDF,
AEAD, digests), which the specification treats as external black boxes,
are modelled as symbolic executable functions.  Tree-math helpers
(`tree_math.cpp`) and the TLS wire encoders, which are not part of the
provided sources, are modelled from the specification; each such
definition is marked `Modelled from the spec`.
-/

namespace MLS

/-- Byte strings. -/
abbrev Bytes := List Nat

namespace TreeMath

/-- Modelled from the spec: `level(x)` is the count of trailing ones of a
`NodeIndex` (`tree_math.cpp` is not among the provided sources).  Written
with structural fuel so that it evaluates inside the kernel. -/
def levelAux : Nat → Nat → Nat
  | 0, _ => 0
  | f + 1, x => if x % 2 = 1 then levelAux f (x / 2) + 1 else 0

def level (x : Nat) : Nat := levelAux x x

theorem levelAux_congr : ∀ f g x, x ≤ f → x ≤ g → levelAux f x = levelAux g x := by
  intro f
  induction f with
  | zero =>
    intro g x hf hg
    have hx : x = 0 := by omega
    subst hx
    cases g with
    | zero => rfl
    | succ g => simp [levelAux]
  | succ f ih =>
    intro g x hf hg
    cases g with
    | zero =>
      have hx : x = 0 := by omega
      subst hx
      simp [levelAux]
    | succ g =>
      rw [levelAux, levelAux]
      by_cases h : x % 2 = 1
      · rw [if_pos h, if_pos h]
        have hx : 1 ≤ x := by omega
        rw [ih g (x / 2) (by omega) (by omega)]
      · rw [if_neg h, if_neg h]

theorem level_of_even {x : Nat} (h : x % 2 = 0) : level x = 0 := by
  unfold level
  cases x with
  | zero => rfl
  | succ y =>
    rw [levelAux]
    simp [h]

theorem level_of_odd {x : Nat} (h : x % 2 = 1) : level x = level (x / 2) + 1 := by
  have hx : 1 ≤ x := by omega
  unfold level
  obtain ⟨y, hy⟩ : ∃ y, x = y + 1 := ⟨x - 1, by omega⟩
  subst hy
  rw [levelAux, if_pos h]
  rw [levelAux_congr y ((y + 1) / 2) ((y + 1) / 2) (by omega) (by omega)]

/-- Modelled from the spec: `log2(x)` is the high-bit index. -/
def log2tAux : Nat → Nat → Nat
  | 0, _ => 0
  | f + 1, x => if x ≤ 1 then 0 else log2tAux f (x / 2) + 1

def log2t (x : Nat) : Nat := log2tAux x x

theorem log2tAux_congr : ∀ f g x, x ≤ f + 1 → x ≤ g + 1 →
    log2tAux f x = log2tAux g x := by
  intro f
  induction f with
  | zero =>
    intro g x hf hg
    have hx : x ≤ 1 := by omega
    cases g with
    | zero => rfl
    | succ g =>
      show 0 = log2tAux (g + 1) x
      rw [log2tAux, if_pos hx]
  | succ f ih =>
    intro g x hf hg
    by_cases h : x ≤ 1
    · rw [log2tAux, if_pos h]
      cases g with
      | zero => rfl
      | succ g => rw [log2tAux, if_pos h]
    · cases g with
      | zero => omega
      | succ g =>
        rw [log2tAux, if_neg h, log2tAux, if_neg h]
        rw [ih g (x / 2) (by omega) (by omega)]

theorem log2t_eq (x : Nat) : log2t x = if x ≤ 1 then 0 else log2t (x / 2) + 1 := by
  unfold log2t
  by_cases h : x ≤ 1
  · rw [if_pos h]
    cases x with
    | zero => rfl
    | succ y =>
      have : y = 0 := by omega
      subst this
      rfl
  · rw [if_neg h]
    obtain ⟨y, hy⟩ : ∃ y, x = y + 1 := ⟨x - 1, by omega⟩
    subst hy
    rw [log2tAux, if_neg h]
    rw [log2tAux_congr y ((y + 1) / 2) ((y + 1) / 2) (by omega) (by omega)]

/-- Modelled from the spec: `root(N) = (1 <<< log2 N) - 1`. -/
def root (nc : Nat) : Nat := 2 ^ log2t nc - 1

theorem level_spec (x : Nat) : x % 2 ^ (level x + 1) = 2 ^ level x - 1 := by
  induction x using Nat.strong_induction_on with
  | _ x ih =>
    rcases Nat.mod_two_eq_zero_or_one x with h | h
    · rw [level_of_even h]
      simpa using h
    · rw [level_of_odd h]
      have hx : 0 < x := by omega
      have ihx := ih (x / 2) (Nat.div_lt_self hx (by omega))
      set k := level (x / 2) with hk
      have hdvd2 : (2 : Nat) ∣ 2 ^ (k + 1 + 1) := dvd_pow_self 2 (by omega)
      have hr2 : x % 2 ^ (k + 1 + 1) % 2 = 1 := by
        rw [Nat.mod_mod_of_dvd x hdvd2]
        exact h
      have hsplit : (2 : Nat) ^ (k + 1 + 1) = 2 * 2 ^ (k + 1) := by ring
      have hrdiv : x % 2 ^ (k + 1 + 1) / 2 = x / 2 % 2 ^ (k + 1) := by
        rw [hsplit, Nat.mod_mul_right_div_self]
      have hp1 : (1 : Nat) ≤ 2 ^ k := Nat.one_le_two_pow
      have hp2 : (2 : Nat) ^ (k + 1) = 2 * 2 ^ k := by ring
      omega

theorem level_intro {x k : Nat} (h : x % 2 ^ (k + 1) = 2 ^ k - 1) : level x = k := by
  induction k generalizing x with
  | zero =>
    simp at h
    exact level_of_even h
  | succ k ih =>
    have hdvd2 : (2 : Nat) ∣ 2 ^ (k + 1 + 1) := dvd_pow_self 2 (by omega)
    have hsplit : (2 : Nat) ^ (k + 1 + 1) = 2 * 2 ^ (k + 1) := by ring
    have hrdiv : x % 2 ^ (k + 1 + 1) / 2 = x / 2 % 2 ^ (k + 1) := by
      rw [hsplit, Nat.mod_mul_right_div_self]
    have hmm := Nat.mod_mod_of_dvd x hdvd2
    have hp1 : (1 : Nat) ≤ 2 ^ k := Nat.one_le_two_pow
    have hp2 : (2 : Nat) ^ (k + 1) = 2 * 2 ^ k := by ring
    have hodd : x % 2 = 1 := by omega
    have hmod : x / 2 % 2 ^ (k + 1) = 2 ^ k - 1 := by omega
    rw [level_of_odd hodd, ih hmod]

/-- Decomposition of `x` by its level: `x = 2^(k+1)·q + (2^k − 1)`. -/
theorem level_decomp (x : Nat) :
    x = 2 ^ (level x + 1) * (x / 2 ^ (level x + 1)) + (2 ^ level x - 1) := by
  conv_lhs => rw [← Nat.div_add_mod x (2 ^ (level x + 1))]
  rw [level_spec]

theorem le_of_level {x : Nat} : 2 ^ level x - 1 ≤ x := by
  have := level_spec x
  have := Nat.mod_le x (2 ^ (level x + 1))
  omega

theorem level_pos_odd {x : Nat} (h : 0 < level x) : x % 2 = 1 := by
  rcases Nat.mod_two_eq_zero_or_one x with h0 | h1
  · rw [level_of_even h0] at h
    omega
  · exact h1

theorem level_eq_zero_of_even {x : Nat} (h : x % 2 = 0) : level x = 0 :=
  level_of_even h

/-- If `x = 2^(k+1)·q + (2^k − 1)` then `level x = k`. -/
theorem level_intro2 {x k q : Nat} (h : x = 2 ^ (k + 1) * q + (2 ^ k - 1)) :
    level x = k := by
  apply level_intro
  have hlt : 2 ^ k - 1 < 2 ^ (k + 1) := by
    have h1 : (1 : Nat) ≤ 2 ^ k := Nat.one_le_two_pow
    have h2 : (2 : Nat) ^ (k + 1) = 2 * 2 ^ k := by ring
    omega
  rw [h, Nat.mul_add_mod, Nat.mod_eq_of_lt hlt]

theorem level_decomp2 (x : Nat) :
    ∃ q, x = 2 ^ (level x + 1) * q + (2 ^ level x - 1) :=
  ⟨x / 2 ^ (level x + 1), level_decomp x⟩

theorem log2t_bounds {x : Nat} (h : 1 ≤ x) :
    2 ^ log2t x ≤ x ∧ x < 2 ^ (log2t x + 1) := by
  induction x using Nat.strong_induction_on with
  | _ x ih =>
    rw [log2t_eq]
    by_cases hx : x ≤ 1
    · simp [hx]
      omega
    · rw [if_neg hx]
      have hx2 : 2 ≤ x := by omega
      have ihh := ih (x / 2) (Nat.div_lt_self (by omega) (by omega)) (by omega)
      set l := log2t (x / 2) with hl
      have e1 : (2 : Nat) ^ (l + 1) = 2 * 2 ^ l := by ring
      have e2 : (2 : Nat) ^ (l + 1 + 1) = 2 * 2 ^ (l + 1) := by ring
      omega

/-- Modelled from the spec: `left(x) = x − (1 <<< (level(x)−1))`; a leaf is
its own left child. -/
def left (x : Nat) : Nat :=
  if level x = 0 then x else x - 2 ^ (level x - 1)

theorem left_lt {x : Nat} (h : 0 < level x) : left x < x := by
  have hle := le_of_level (x := x)
  have h1 : (1 : Nat) ≤ 2 ^ (level x - 1) := Nat.one_le_two_pow
  have h2 : 2 ^ (level x - 1) ≤ 2 ^ level x :=
    Nat.pow_le_pow_right (by omega) (by omega)
  have h3 : (2 : Nat) ≤ 2 ^ level x := by
    calc (2 : Nat) = 2 ^ 1 := by norm_num
    _ ≤ 2 ^ level x := Nat.pow_le_pow_right (by omega) (by omega)
  unfold left
  rw [if_neg (by omega)]
  omega

theorem left_eq {x : Nat} (h : 0 < level x) : left x = x - 2 ^ (level x - 1) := by
  unfold left
  rw [if_neg (by omega)]

theorem level_left {x k : Nat} (h : level x = k + 1) : level (left x) = k := by
  obtain ⟨q, hq⟩ := level_decomp2 x
  rw [h] at hq
  have hlx : left x = x - 2 ^ k := by
    rw [left_eq (by omega)]
    rw [h]
    simp
  apply level_intro2 (q := 2 * q)
  have hprod : 2 ^ (k + 1 + 1) * q = 2 ^ (k + 1) * (2 * q) := by ring
  have e1 : (2 : Nat) ^ (k + 1) = 2 * 2 ^ k := by ring
  have hp1 : (1 : Nat) ≤ 2 ^ k := Nat.one_le_two_pow
  omega

/-- The leftmost descendant (in the unclipped complete tree) of `x`. -/
def leftmostD (x : Nat) : Nat := x - (2 ^ level x - 1)

theorem leftmostD_left {x : Nat} (h : 0 < level x) :
    leftmostD (left x) = leftmostD x := by
  obtain ⟨k, hk⟩ : ∃ k, level x = k + 1 := ⟨level x - 1, by omega⟩
  have hll := level_left hk
  have hlx : left x = x - 2 ^ k := by
    rw [left_eq (by omega), hk]
    simp
  unfold leftmostD
  rw [hll, hlx, hk]
  obtain ⟨q, hq⟩ := level_decomp2 x
  rw [hk] at hq
  have e1 : (2 : Nat) ^ (k + 1) = 2 * 2 ^ k := by ring
  have hp1 : (1 : Nat) ≤ 2 ^ k := Nat.one_le_two_pow
  omega

theorem level_left_lt {x : Nat} (h : 0 < level x) : level (left x) < level x := by
  obtain ⟨k, hk⟩ : ∃ k, level x = k + 1 := ⟨level x - 1, by omega⟩
  rw [hk, level_left hk]
  omega

/-- Modelled from the spec: the clipping loop of `right`: while the naive
right child lies beyond the tree, walk its left spine.  Written with
structural fuel (one unit per level) so that it evaluates in the kernel. -/
def clipAux (nc : Nat) : Nat → Nat → Nat
  | 0, r => r
  | f + 1, r =>
    if r < nc then r
    else if level r = 0 then r
    else clipAux nc f (left r)

def clip (nc r : Nat) : Nat := clipAux nc (level r + 1) r

theorem clipAux_congr (nc : Nat) : ∀ f g r, level r < f → level r < g →
    clipAux nc f r = clipAux nc g r := by
  intro f
  induction f with
  | zero =>
    intro g r hf hg
    omega
  | succ f ih =>
    intro g r hf hg
    cases g with
    | zero => omega
    | succ g =>
      rw [clipAux, clipAux]
      by_cases h1 : r < nc
      · rw [if_pos h1, if_pos h1]
      · rw [if_neg h1, if_neg h1]
        by_cases h2 : level r = 0
        · rw [if_pos h2, if_pos h2]
        · rw [if_neg h2, if_neg h2]
          have hlt := level_left_lt (x := r) (by omega)
          exact ih g (left r) (by omega) (by omega)

theorem clip_eq (nc r : Nat) :
    clip nc r = if r < nc then r else if level r = 0 then r else clip nc (left r) := by
  unfold clip
  rw [clipAux]
  by_cases h1 : r < nc
  · rw [if_pos h1, if_pos h1]
  · rw [if_neg h1, if_neg h1]
    by_cases h2 : level r = 0
    · rw [if_pos h2, if_pos h2]
    · rw [if_neg h2, if_neg h2]
      have hlt := level_left_lt (x := r) (by omega)
      exact clipAux_congr nc (level r) (level (left r) + 1) (left r) (by omega) (by omega)

/-- Modelled from the spec: `right(x,N)` is the mirror of `left`, clipped to
remain inside the tree. -/
def right (x nc : Nat) : Nat :=
  if level x = 0 then x else clip nc (x + 2 ^ (level x - 1))

theorem level_rightNaive {x k : Nat} (h : level x = k + 1) :
    level (x + 2 ^ k) = k := by
  obtain ⟨q, hq⟩ := level_decomp2 x
  rw [h] at hq
  apply level_intro2 (q := 2 * q + 1)
  have hprod : 2 ^ (k + 1 + 1) * q = 2 ^ (k + 1) * (2 * q) := by ring
  have hprod2 : 2 ^ (k + 1) * (2 * q + 1) = 2 ^ (k + 1) * (2 * q) + 2 ^ (k + 1) := by
    ring
  have e1 : (2 : Nat) ^ (k + 1) = 2 * 2 ^ k := by ring
  have hp1 : (1 : Nat) ≤ 2 ^ k := Nat.one_le_two_pow
  omega

/-- Key facts about `clip`: the result is below `nc` (given that the
leftmost descendant is), it preserves the leftmost descendant, its level
does not grow, and when clipping occurred the subtree still reaches `nc`. -/
theorem clip_spec (nc : Nat) :
    ∀ r, leftmostD r < nc →
      clip nc r < nc ∧ leftmostD (clip nc r) = leftmostD r ∧
      level (clip nc r) ≤ level r ∧
      (clip nc r = r ∨ nc ≤ clip nc r + 2 ^ level (clip nc r)) := by
  intro r
  induction r using Nat.strong_induction_on with
  | _ r ih =>
    intro hlm
    rw [clip_eq]
    by_cases hr : r < nc
    · simp [hr]
    · simp only [hr, if_false]
      by_cases hl : level r = 0
      · simp only [hl, if_true]
        unfold leftmostD at hlm
        rw [hl] at hlm
        simp at hlm
        omega
      · simp only [hl, if_false]
        have hlev : 0 < level r := by omega
        have hlm2 : leftmostD (left r) < nc := by rw [leftmostD_left hlev]; exact hlm
        have ihh := ih (left r) (left_lt hlev) hlm2
        obtain ⟨k, hk⟩ : ∃ k, level r = k + 1 := ⟨level r - 1, by omega⟩
        have hll : level (left r) = k := level_left hk
        refine ⟨ihh.1, ?_, ?_, ?_⟩
        · rw [ihh.2.1, leftmostD_left hlev]
        · omega
        · right
          rcases ihh.2.2.2 with heq | hge
          · rw [heq, hll]
            have hlr : left r = r - 2 ^ k := by
              rw [left_eq hlev, hk]
              simp
            obtain ⟨q, hq⟩ := level_decomp2 r
            rw [hk] at hq
            have e1 : (2 : Nat) ^ (k + 1) = 2 * 2 ^ k := by ring
            have hp1 : (1 : Nat) ≤ 2 ^ k := Nat.one_le_two_pow
            omega
          · exact hge

theorem level_clip_le (nc r : Nat) (h : leftmostD r < nc) :
    level (clip nc r) ≤ level r := (clip_spec nc r h).2.2.1

/-- Modelled from the spec: the unclipped parent of `x` in a complete tree:
set bit `level x`, clear bit `level x + 1`. -/
def parent_step (p : Nat) : Nat :=
  p + 2 ^ level p - (p / 2 ^ (level p + 1) % 2) * 2 ^ (level p + 1)

theorem parent_step_form (p : Nat) :
    ∃ c, parent_step p = 2 ^ (level p + 1 + 1) * c + (2 ^ (level p + 1) - 1) ∧
      2 ^ (level p + 1 + 1) * c ≤ p := by
  set k := level p with hk
  obtain ⟨q, hq⟩ := level_decomp2 p
  rw [← hk] at hq
  have hqq : q = p / 2 ^ (k + 1) := by
    have hlt : 2 ^ k - 1 < 2 ^ (k + 1) := by
      have h1 : (1 : Nat) ≤ 2 ^ k := Nat.one_le_two_pow
      have h2 : (2 : Nat) ^ (k + 1) = 2 * 2 ^ k := by ring
      omega
    rw [hq, Nat.mul_add_div (by positivity), Nat.div_eq_of_lt hlt]
    omega
  have hp1 : (1 : Nat) ≤ 2 ^ k := Nat.one_le_two_pow
  have e1 : (2 : Nat) ^ (k + 1) = 2 * 2 ^ k := by ring
  refine ⟨q / 2, ?_, ?_⟩
  · unfold parent_step
    rw [← hk, ← hqq]
    rcases Nat.mod_two_eq_zero_or_one q with hb | hb
    · rw [hb]
      simp only [Nat.zero_mul, Nat.sub_zero]
      have hA : 2 ^ (k + 1) * q = 2 ^ (k + 1 + 1) * (q / 2) := by
        conv_lhs => rw [show q = 2 * (q / 2) by omega]
        ring
      omega
    · rw [hb]
      simp only [Nat.one_mul]
      have hA : 2 ^ (k + 1) * q = 2 ^ (k + 1 + 1) * (q / 2) + 2 ^ (k + 1) := by
        conv_lhs => rw [show q = 2 * (q / 2) + 1 by omega]
        ring
      omega
  · rcases Nat.mod_two_eq_zero_or_one q with hb | hb
    · have hA : 2 ^ (k + 1) * q = 2 ^ (k + 1 + 1) * (q / 2) := by
        conv_lhs => rw [show q = 2 * (q / 2) by omega]
        ring
      omega
    · have hA : 2 ^ (k + 1) * q = 2 ^ (k + 1 + 1) * (q / 2) + 2 ^ (k + 1) := by
        conv_lhs => rw [show q = 2 * (q / 2) + 1 by omega]
        ring
      omega

theorem level_parent_step (p : Nat) : level (parent_step p) = level p + 1 := by
  obtain ⟨c, hc, _⟩ := parent_step_form p
  exact level_intro2 hc

/-- `parent_step` stays well inside the enclosing complete tree. -/
theorem parent_step_bound {p m : Nat} (hp : p ≤ 2 ^ m - 2)
    (hl : level p + 1 + 1 ≤ m) : parent_step p ≤ 2 ^ m - 2 ^ (level p + 1) - 1 := by
  obtain ⟨c, hc, hcle⟩ := parent_step_form p
  set k := level p with hk
  have hcbound : c < 2 ^ (m - (k + 1 + 1)) := by
    by_contra hcon
    push_neg at hcon
    have : 2 ^ (k + 1 + 1) * 2 ^ (m - (k + 1 + 1)) ≤ 2 ^ (k + 1 + 1) * c :=
      Nat.mul_le_mul_left _ hcon
    rw [← Nat.pow_add] at this
    have hm : k + 1 + 1 + (m - (k + 1 + 1)) = m := by omega
    rw [hm] at this
    have h2 : (2 : Nat) ≤ 2 ^ m := by
      calc (2 : Nat) = 2 ^ 1 := by norm_num
      _ ≤ 2 ^ m := Nat.pow_le_pow_right (by omega) (by omega)
    omega
  have hc1 : c + 1 ≤ 2 ^ (m - (k + 1 + 1)) := by omega
  have hmul : 2 ^ (k + 1 + 1) * (c + 1) ≤ 2 ^ (k + 1 + 1) * 2 ^ (m - (k + 1 + 1)) :=
    Nat.mul_le_mul_left _ hc1
  rw [← Nat.pow_add] at hmul
  have hm : k + 1 + 1 + (m - (k + 1 + 1)) = m := by omega
  rw [hm] at hmul
  have hexp : 2 ^ (k + 1 + 1) * (c + 1) = 2 ^ (k + 1 + 1) * c + 2 ^ (k + 1 + 1) := by
    ring
  have e1 : (2 : Nat) ^ (k + 1 + 1) = 2 * 2 ^ (k + 1) := by ring
  have hp1 : (1 : Nat) ≤ 2 ^ (k + 1) := Nat.one_le_two_pow
  omega

/-- Modelled from the spec: the clipping loop of `parent`, with explicit
fuel (the C++ loop's termination relies on the node being inside the
tree). -/
def parentAux (nc : Nat) : Nat → Nat → Nat
  | 0, p => p
  | f + 1, p => if p < nc then p else parentAux nc f (parent_step p)

/-- Modelled from the spec: `parent(x,N)`, clipped like `right`. -/
def parent (x nc : Nat) : Nat :=
  if x = root nc then x else parentAux nc (log2t nc + 2) (parent_step x)

theorem level_parentAux_ge (nc : Nat) :
    ∀ f p, level p ≤ level (parentAux nc f p) := by
  intro f
  induction f with
  | zero => intro p; simp [parentAux]
  | succ f ih =>
    intro p
    rw [parentAux]
    by_cases hp : p < nc
    · simp [hp]
    · simp only [hp, if_false]
      have := ih (parent_step p)
      have hl := level_parent_step p
      omega

theorem parentAux_lt {nc L : Nat} (hL1 : 2 ^ L ≤ nc) (hL2 : nc < 2 ^ (L + 1)) :
    ∀ f p, p ≤ 2 ^ (L + 1) - 2 → L + 1 ≤ level p + f → parentAux nc f p < nc := by
  intro f
  induction f with
  | zero =>
    intro p hp hf
    simp at hf
    have hle := le_of_level (x := p)
    have hmono : 2 ^ (L + 1) ≤ 2 ^ level p := Nat.pow_le_pow_right (by omega) hf
    have hp1 : (1 : Nat) ≤ 2 ^ (L + 1) := Nat.one_le_two_pow
    omega
  | succ f ih =>
    intro p hp hf
    rw [parentAux]
    by_cases hlt : p < nc
    · simpa [hlt] using hlt
    · simp only [hlt, if_false]
      have hlevle : level p + 1 ≤ L := by
        by_contra hcon
        push_neg at hcon
        rcases Nat.lt_or_ge (level p) (L + 1) with hcase | hcase
        · have hlev : level p = L := by omega
          obtain ⟨q, hq⟩ := level_decomp2 p
          rw [hlev] at hq
          have e1 : (2 : Nat) ^ (L + 1) = 2 * 2 ^ L := by ring
          have hp1 : (1 : Nat) ≤ 2 ^ L := Nat.one_le_two_pow
          have hq0 : q = 0 := by
            rcases Nat.eq_zero_or_pos q with h0 | hqpos
            · exact h0
            · have : 2 ^ (L + 1) * 1 ≤ 2 ^ (L + 1) * q := Nat.mul_le_mul_left _ hqpos
              omega
          rw [hq0] at hq
          simp at hq
          omega
        · have hle := le_of_level (x := p)
          have hmono : 2 ^ (L + 1) ≤ 2 ^ level p :=
            Nat.pow_le_pow_right (by omega) (by omega)
          have hp1 : (1 : Nat) ≤ 2 ^ (L + 1) := Nat.one_le_two_pow
          omega
      have hbnd := parent_step_bound (m := L + 1) hp (by omega)
      have hp2 : (2 : Nat) ≤ 2 ^ (level p + 1) := by
        calc (2 : Nat) = 2 ^ 1 := by norm_num
        _ ≤ 2 ^ (level p + 1) := Nat.pow_le_pow_right (by omega) (by omega)
      apply ih
      · omega
      · rw [level_parent_step]
        omega

theorem level_root (nc : Nat) : level (root nc) = log2t nc := by
  apply level_intro2 (q := 0)
  unfold root
  simp

theorem root_lt {nc : Nat} (h : 1 ≤ nc) : root nc < nc := by
  have hb := log2t_bounds h
  unfold root
  have hp1 : (1 : Nat) ≤ 2 ^ log2t nc := Nat.one_le_two_pow
  omega

theorem parent_lt {x nc : Nat} (hnc : 1 ≤ nc) (hx : x < nc) : parent x nc < nc := by
  unfold parent
  by_cases hroot : x = root nc
  · rw [if_pos hroot, hroot]
    exact root_lt hnc
  · rw [if_neg hroot]
    have hb := log2t_bounds hnc
    have hre : root nc = 2 ^ log2t nc - 1 := rfl
    have hlevlt : level x + 1 ≤ log2t nc := by
      by_contra hcon
      push_neg at hcon
      rcases Nat.lt_or_ge (level x) (log2t nc + 1) with hcase | hcase
      · have hlev : level x = log2t nc := by omega
        obtain ⟨q, hq⟩ := level_decomp2 x
        rw [hlev] at hq
        have e1 : (2 : Nat) ^ (log2t nc + 1) = 2 * 2 ^ log2t nc := by ring
        have hp1 : (1 : Nat) ≤ 2 ^ log2t nc := Nat.one_le_two_pow
        have hq0 : q = 0 := by
          rcases Nat.eq_zero_or_pos q with h0 | hqpos
          · exact h0
          · have : 2 ^ (log2t nc + 1) * 1 ≤ 2 ^ (log2t nc + 1) * q :=
              Nat.mul_le_mul_left _ hqpos
            omega
        rw [hq0] at hq
        simp at hq
        apply hroot
        omega
      · have hle := le_of_level (x := x)
        have hmono : 2 ^ (log2t nc + 1) ≤ 2 ^ level x :=
          Nat.pow_le_pow_right (by omega) (by omega)
        have hp1 : (1 : Nat) ≤ 2 ^ (log2t nc + 1) := Nat.one_le_two_pow
        omega
    have hbnd := parent_step_bound (m := log2t nc + 1) (p := x) (by omega) (by omega)
    have hp2 : (2 : Nat) ≤ 2 ^ (level x + 1) := by
      calc (2 : Nat) = 2 ^ 1 := by norm_num
      _ ≤ 2 ^ (level x + 1) := Nat.pow_le_pow_right (by omega) (by omega)
    apply parentAux_lt (L := log2t nc) (by omega) (by omega)
    · omega
    · rw [level_parent_step]
      omega

theorem parent_level_gt {x nc : Nat} (hroot : x ≠ root nc) :
    level x < level (parent x nc) := by
  unfold parent
  rw [if_neg hroot]
  have := level_parentAux_ge nc (log2t nc + 2) (parent_step x)
  have hl := level_parent_step x
  omega

/-- Modelled from the spec: the chain of ancestors from `x` (inclusive) to
the root (inclusive); `implant` writes a path secret at every index of this
chain, and `dirpath x` is the chain without its head. -/
def chainAux (nc : Nat) : Nat → Nat → List Nat
  | 0, n => [n]
  | f + 1, n => if n = root nc then [n] else n :: chainAux nc f (parent n nc)

/-- The fuel used for ancestor chains; sufficient for every in-range start. -/
def pathFuel (nc : Nat) : Nat := log2t nc + 2

def nodeChain (nc n : Nat) : List Nat := chainAux nc (pathFuel nc) n

/-- Modelled from the spec: `dirpath(x,N)` is the sequence from `parent(x)`
to the root, inclusive; empty at the root. -/
def dirpath (x nc : Nat) : List Nat := (nodeChain nc x).drop 1

theorem chainAux_head (nc f n : Nat) :
    ∃ t, chainAux nc f n = n :: t := by
  cases f with
  | zero => exact ⟨[], rfl⟩
  | succ f =>
    rw [chainAux]
    by_cases h : n = root nc
    · exact ⟨[], by simp [h]⟩
    · exact ⟨chainAux nc f (parent n nc), by simp [h]⟩

theorem chainAux_mem_lt {nc : Nat} (hnc : 1 ≤ nc) :
    ∀ f n, n < nc → ∀ m ∈ chainAux nc f n, m < nc := by
  intro f
  induction f with
  | zero =>
    intro n hn m hm
    simp [chainAux] at hm
    omega
  | succ f ih =>
    intro n hn m hm
    rw [chainAux] at hm
    by_cases h : n = root nc
    · rw [if_pos h] at hm
      simp at hm
      omega
    · rw [if_neg h] at hm
      rcases List.mem_cons.mp hm with hm | hm
      · omega
      · exact ih (parent n nc) (parent_lt hnc hn) m hm

theorem chainAux_mem_level_ge {nc : Nat} :
    ∀ f n, ∀ m ∈ chainAux nc f n, level n ≤ level m := by
  intro f
  induction f with
  | zero =>
    intro n m hm
    simp [chainAux] at hm
    rw [hm]
  | succ f ih =>
    intro n m hm
    rw [chainAux] at hm
    by_cases h : n = root nc
    · rw [if_pos h] at hm
      simp at hm
      rw [hm]
    · rw [if_neg h] at hm
      rcases List.mem_cons.mp hm with hm | hm
      · rw [hm]
      · have h1 := ih (parent n nc) m hm
        have h2 := @parent_level_gt n nc h
        omega

theorem chainAux_nodup {nc : Nat} :
    ∀ f n, (chainAux nc f n).Nodup := by
  intro f
  induction f with
  | zero =>
    intro n
    simp [chainAux]
  | succ f ih =>
    intro n
    rw [chainAux]
    by_cases h : n = root nc
    · simp [h]
    · simp only [h, if_false, List.nodup_cons]
      refine ⟨?_, ih (parent n nc)⟩
      intro hmem
      have hge := chainAux_mem_level_ge f (parent n nc) n hmem
      have := @parent_level_gt n nc h
      omega

/-- Modelled from the spec: `sibling(x,N)` is the other child of
`parent(x,N)`. -/
def sibling (x nc : Nat) : Nat :=
  let p := parent x nc
  if x < p then right p nc else if p < x then left p else p

/-- Modelled from the spec: `in_path(n, a)` holds when `a` is an
ancestor-or-self of `n` in the complete tree (the sense in which `decap`
uses it to find the overlap between the sender's direct path and the
receiver's). -/
def in_path (n a : Nat) : Bool :=
  decide (level n ≤ level a) &&
    decide (n / 2 ^ (level a + 1) = a / 2 ^ (level a + 1))

/-- Modelled from the spec: `NodeCount` of a `LeafCount`: `2n − 1` when
`n > 0`. -/
def nodeWidth (n : Nat) : Nat := if n = 0 then 0 else 2 * n - 1

/-- Modelled from the spec: `LeafCount` of a `NodeCount`. -/
def leafWidth (w : Nat) : Nat := if w = 0 then 0 else w / 2 + 1

theorem level_clip_le_uncond (nc : Nat) : ∀ r, level (clip nc r) ≤ level r := by
  intro r
  induction r using Nat.strong_induction_on with
  | _ r ih =>
    rw [clip_eq]
    by_cases hr : r < nc
    · simp [hr]
    · simp only [hr, if_false]
      by_cases hl : level r = 0
      · simp [hl]
      · simp only [hl, if_false]
        have h1 := ih (left r) (left_lt (by omega))
        have h2 := level_left_lt (x := r) (by omega)
        omega

theorem level_right_lt {x nc : Nat} (h : 0 < level x) : level (right x nc) < level x := by
  obtain ⟨k, hk⟩ : ∃ k, level x = k + 1 := ⟨level x - 1, by omega⟩
  unfold right
  rw [if_neg (by omega)]
  have hnaive : level (x + 2 ^ (level x - 1)) = k := by
    have : level x - 1 = k := by omega
    rw [this]
    exact level_rightNaive hk
  have := level_clip_le_uncond nc (x + 2 ^ (level x - 1))
  omega

end TreeMath

open TreeMath

/-- Cipher suites are identified by their wire code (`CipherSuite` is a
`uint16` enum in the sources). -/
abbrev CipherSuite := Nat

/-- Modelled from the spec: digest output size `Nh` (a per-suite constant;
none of the verified claims depend on its value). -/
def digestSize (_suite : CipherSuite) : Nat := 32

/-- Modelled from the spec: AEAD key size `Nk`. -/
def suiteKeySize (_suite : CipherSuite) : Nat := 16

/-- Modelled from the spec: AEAD nonce size `Nn`. -/
def suiteNonceSize (_suite : CipherSuite) : Nat := 12

/-- Modelled from the spec: `HKDF-Expand-Label(secret, label, context, length)`,
a deterministic KDF treated as a black box; the symbolic encoding keeps
distinct arguments distinguishable. -/
def hkdfExpandLabel (suite : CipherSuite) (secret : Bytes) (label : String)
    (context : Bytes) (length : Nat) : Bytes :=
  suite :: length :: secret.length :: secret ++
    (label.toList.map Char.toNat) ++ context.length :: context

structure HPKEPublicKey where
  data : Bytes
deriving DecidableEq

structure HPKEPrivateKey where
  data : Bytes
deriving DecidableEq

/-- Modelled from the spec: `HPKEPrivateKey::derive(suite, secret)`. -/
def hpkeDerive (suite : CipherSuite) (secret : Bytes) : HPKEPrivateKey :=
  ⟨suite :: secret⟩

/-- Modelled from the spec: the public half of an HPKE private key. -/
def hpkePublic (sk : HPKEPrivateKey) : HPKEPublicKey :=
  ⟨1 :: sk.data⟩

structure HPKECiphertext where
  kem_output : Bytes
  ciphertext : Bytes
deriving DecidableEq

/-- Modelled from the spec: `HPKE.encrypt(pk, aad, pt)`. -/
def hpkeEncrypt (_suite : CipherSuite) (pk : HPKEPublicKey) (aad pt : Bytes) :
    HPKECiphertext :=
  ⟨pk.data, aad.length :: aad ++ pt⟩

/-- Modelled from the spec: `HPKE.decrypt(sk, aad, ct)`; the primitive
contract makes it return the plaintext sealed under the matching public
key and AAD. -/
def hpkeDecrypt (_suite : CipherSuite) (_sk : HPKEPrivateKey) (aad : Bytes)
    (ct : HPKECiphertext) : Bytes :=
  ct.ciphertext.drop (aad.length + 1)

structure SignaturePrivateKey where
  data : Bytes
deriving DecidableEq

/-- Modelled from the spec: `Signature.sign(sk, msg)`. -/
def sigSign (sk : SignaturePrivateKey) (msg : Bytes) : Bytes :=
  sk.data.length :: sk.data ++ msg

/-- The Basic credential variant: identity, scheme, signature public key. -/
structure Credential where
  identity : Bytes
  scheme : Nat
  public_key : Bytes
deriving DecidableEq

structure Extension where
  etype : Nat
  edata : Bytes
deriving DecidableEq

structure KeyPackage where
  cipher_suite : CipherSuite
  init_key : HPKEPublicKey
  credential : Credential
  extensions : List Extension
  signature : Bytes
deriving DecidableEq

/-- Modelled from the spec: the to-be-signed serialization of a
`KeyPackage` (all fields except the trailing signature). -/
def kpTBS (kp : KeyPackage) : Bytes :=
  kp.cipher_suite :: kp.init_key.data.length :: kp.init_key.data ++
    kp.credential.identity.length :: kp.credential.identity ++
    kp.credential.scheme :: kp.credential.public_key.length :: kp.credential.public_key

/-- Modelled from the spec: re-signing a `KeyPackage` with the identity
key (`KeyPackage::sign`). -/
def kpSign (kp : KeyPackage) (sig_priv : SignaturePrivateKey) : KeyPackage :=
  { kp with signature := sigSign sig_priv (kpTBS kp) }

structure ParentNode where
  public_key : HPKEPublicKey
  unmerged_leaves : List Nat
  parent_hash : Bytes
deriving DecidableEq

inductive Node where
  | leaf (kp : KeyPackage)
  | parent (pn : ParentNode)
deriving DecidableEq

/-- `Node::public_key` (`treekem.cpp:15`). -/
def Node.public_key : Node → HPKEPublicKey
  | .leaf kp => kp.init_key
  | .parent pn => pn.public_key

/-- A slot of the tree's node array.  The per-node hash cache of the C++
`OptionalNode` is not modelled (none of the claims mention it). -/
structure OptionalNode where
  node : Option Node
deriving DecidableEq

def blankNode : OptionalNode := ⟨none⟩

structure RatchetNode where
  public_key : HPKEPublicKey
  node_secrets : List HPKECiphertext
deriving DecidableEq

structure DirectPath where
  leaf_key_package : KeyPackage
  nodes : List RatchetNode
deriving DecidableEq

/-- Modelled from the spec: `DirectPath::sign` installs the new leaf HPKE
public key into the leaf `KeyPackage` and re-signs it. -/
def DirectPath.signPath (p : DirectPath) (init_pub : HPKEPublicKey)
    (sig_priv : SignaturePrivateKey) : DirectPath :=
  { p with leaf_key_package := kpSign { p.leaf_key_package with init_key := init_pub } sig_priv }

/-- Error kinds raised by the embedded operations.  `outOfRange` models the
`std::out_of_range` of `std::vector::at`, `badVariant` a
`std::bad_variant_access` of `std::get`, `badOptional` a
`std::bad_optional_access` of `std::optional::value`. -/
inductive Err where
  | protocol (msg : String)
  | invalidParameter (msg : String)
  | outOfRange
  | badVariant
  | badOptional
deriving DecidableEq

deriving instance DecidableEq for Except

structure TreeKEMPublicKey where
  suite : CipherSuite
  nodes : List OptionalNode
deriving DecidableEq

namespace TreeKEMPublicKey

/-- `nodes[n]`, blank out of range (in-range use is established separately
where it matters). -/
def nodeOpt (t : TreeKEMPublicKey) (n : Nat) : Option Node :=
  (t.nodes.getD n blankNode).node

/-- `TreeKEMPublicKey::size()` (`treekem.cpp:404`). -/
def leafCount (t : TreeKEMPublicKey) : Nat := leafWidth t.nodes.length

/-- `NodeCount(size())`. -/
def nodeCount (t : TreeKEMPublicKey) : Nat := nodeWidth t.leafCount

/-- `TreeKEMPublicKey::resolve` (`treekem.cpp:410`), with structural fuel
(one unit per level) so that it evaluates in the kernel; `resolve` below
supplies sufficient fuel and `resolve_blank_parent` recovers the
recursion. -/
def resolveAux (t : TreeKEMPublicKey) : Nat → Nat → List Nat
  | 0, _ => []
  | f + 1, x =>
    match t.nodeOpt x with
    | some (Node.leaf _) => [x]
    | some (Node.parent pn) => x :: pn.unmerged_leaves.map (fun u => 2 * u)
    | none =>
      if level x = 0 then []
      else resolveAux t f (left x) ++ resolveAux t f (right x t.nodeCount)

def resolve (t : TreeKEMPublicKey) (x : Nat) : List Nat :=
  resolveAux t (level x + 1) x

/-- The spec's recursive definition of resolution, written as the four
cases of the specification text: non-blank leaf, non-blank parent
(`[n]` followed by the unmerged leaves in insertion order), blank leaf,
blank parent. -/
def resolveSpecAux (t : TreeKEMPublicKey) : Nat → Nat → List Nat
  | 0, _ => []
  | f + 1, x =>
    match t.nodeOpt x with
    | some (Node.leaf _) => [x]
    | some (Node.parent pn) => [x] ++ pn.unmerged_leaves.map (fun u => 2 * u)
    | none =>
      if level x = 0 then []
      else resolveSpecAux t f (left x) ++ resolveSpecAux t f (right x t.nodeCount)

def resolveSpec (t : TreeKEMPublicKey) (x : Nat) : List Nat :=
  resolveSpecAux t (level x + 1) x

/-- The loop of `add_leaf` finding the leftmost free leaf
(`treekem.cpp:312`), with structural fuel. -/
def findBlankAux (nodes : List OptionalNode) (size : Nat) : Nat → Nat → Nat
  | 0, i => i
  | f + 1, i =>
    if i < size then
      if (nodes.getD (2 * i) blankNode).node.isSome then findBlankAux nodes size f (i + 1)
      else i
    else i

/-- The unmerged-leaves update loop of `add_leaf` (`treekem.cpp:328`). -/
def addUnmerged (index : Nat) : List Nat → List OptionalNode → Except Err (List OptionalNode)
  | [], nodes => .ok nodes
  | n :: rest, nodes =>
    if n < nodes.length then
      match (nodes.getD n blankNode).node with
      | none => addUnmerged index rest nodes
      | some (Node.leaf _) => .error Err.badVariant
      | some (Node.parent pn) =>
        addUnmerged index rest
          (nodes.set n ⟨some (Node.parent
            { pn with unmerged_leaves := pn.unmerged_leaves ++ [index] })⟩)
    else .error Err.outOfRange

/-- `TreeKEMPublicKey::add_leaf` (`treekem.cpp:309`). -/
def add_leaf (t : TreeKEMPublicKey) (kp : KeyPackage) :
    Except Err (TreeKEMPublicKey × Nat) :=
  let size0 := t.leafCount
  let index := findBlankAux t.nodes size0 size0 0
  let ni := 2 * index
  let nodes1 :=
    if size0 ≤ index then t.nodes ++ List.replicate (ni + 1 - t.nodes.length) blankNode
    else t.nodes
  if ni < nodes1.length then
    let nodes2 := nodes1.set ni ⟨some (Node.leaf kp)⟩
    match addUnmerged index (dirpath ni (nodeWidth (leafWidth nodes2.length))) nodes2 with
    | .ok nodes3 => .ok ({ t with nodes := nodes3 }, index)
    | .error e => .error e
  else .error Err.outOfRange

/-- The blanking loop shared by `blank_path` (`treekem.cpp:349`). -/
def blankList : List Nat → List OptionalNode → Except Err (List OptionalNode)
  | [], ns => .ok ns
  | n :: rest, ns =>
    if n < ns.length then blankList rest (ns.set n blankNode)
    else .error Err.outOfRange

/-- `TreeKEMPublicKey::blank_path` (`treekem.cpp:349`). -/
def blank_path (t : TreeKEMPublicKey) (i : Nat) : Except Err TreeKEMPublicKey :=
  if t.nodes.isEmpty then .ok t
  else
    let ni := 2 * i
    if ni < t.nodes.length then
      let nodes1 := t.nodes.set ni blankNode
      match blankList (dirpath ni t.nodeCount) nodes1 with
      | .ok nodes2 => .ok { t with nodes := nodes2 }
      | .error e => .error e
    else .error Err.outOfRange

/-- `TreeKEMPublicKey::update_leaf` (`treekem.cpp:341`). -/
def update_leaf (t : TreeKEMPublicKey) (i : Nat) (kp : KeyPackage) :
    Except Err TreeKEMPublicKey :=
  match t.blank_path i with
  | .error e => .error e
  | .ok t1 =>
    if 2 * i < t1.nodes.length then
      .ok { t1 with nodes := t1.nodes.set (2 * i) ⟨some (Node.leaf kp)⟩ }
    else .error Err.outOfRange

/-- The parent-overwriting loop of `merge` (`treekem.cpp:376`); on an
out-of-range index the nodes written so far remain (the C++ `at` throw
leaves the partial mutation in place). -/
def mergeParents : List Nat → List RatchetNode → List OptionalNode →
    Option Err × List OptionalNode
  | [], _, ns => (none, ns)
  | _ :: _, [], ns => (none, ns)
  | n :: rest, rn :: rrest, ns =>
    if n < ns.length then
      mergeParents rest rrest
        (ns.set n ⟨some (Node.parent { public_key := rn.public_key, unmerged_leaves := [], parent_hash := [] })⟩)
    else (some Err.outOfRange, ns)

/-- `TreeKEMPublicKey::merge` (`treekem.cpp:365`).  The second component is
the state of the tree after the call, including the partial mutation left
behind when the call throws. -/
def merge (t : TreeKEMPublicKey) (frm : Nat) (path : DirectPath) :
    Option Err × TreeKEMPublicKey :=
  let ni := 2 * frm
  if ni < t.nodes.length then
    let t1 : TreeKEMPublicKey :=
      { t with nodes := t.nodes.set ni ⟨some (Node.leaf path.leaf_key_package)⟩ }
    let dp := dirpath ni t1.nodeCount
    if dp.length = path.nodes.length then
      match mergeParents dp path.nodes t1.nodes with
      | (none, ns) => (none, { t with nodes := ns })
      | (some e, ns) => (some e, { t with nodes := ns })
    else (some (Err.protocol "Malformed direct path"), t1)
  else (some Err.outOfRange, t)

/-- `TreeKEMPublicKey::truncate` (`treekem.cpp:516`): pop while the last
slot is blank. -/
def truncate (t : TreeKEMPublicKey) : TreeKEMPublicKey :=
  { t with nodes := ((t.nodes.reverse.dropWhile (fun n => n.node.isNone)).reverse) }

end TreeKEMPublicKey

/-- `std::map` lookup on an association list. -/
def alookup {α : Type} : List (Nat × α) → Nat → Option α
  | [], _ => none
  | (k, v) :: rest, n => if n = k then some v else alookup rest n

/-- `std::map` insert-or-assign on an association list. -/
def ainsert {α : Type} : List (Nat × α) → Nat → α → List (Nat × α)
  | [], n, v => [(n, v)]
  | (k, w) :: rest, n, v =>
    if n = k then (k, v) :: rest else (k, w) :: ainsert rest n v

/-- `std::map` erase on an association list. -/
def aerase {α : Type} : List (Nat × α) → Nat → List (Nat × α)
  | [], _ => []
  | (k, w) :: rest, n =>
    if n = k then aerase rest n else (k, w) :: aerase rest n

structure TreeKEMPrivateKey where
  suite : CipherSuite
  index : Nat
  update_secret : Bytes
  path_secrets : List (Nat × Bytes)
  private_key_cache : List (Nat × HPKEPrivateKey)
deriving DecidableEq

namespace TreeKEMPrivateKey

/-- `TreeKEMPrivateKey::path_step` (`treekem.cpp:90`). -/
def path_step (suite : CipherSuite) (path_secret : Bytes) : Bytes :=
  hkdfExpandLabel suite path_secret "path" [] (digestSize suite)

/-- The write loop of `implant` (`treekem.cpp:97`), iterated over the
ancestor chain of the start node: store the secret, drop the cached
private key, step the secret. -/
def implantGo (suite : CipherSuite) : List Nat → Bytes → TreeKEMPrivateKey →
    TreeKEMPrivateKey
  | [], _, k => k
  | n :: rest, s, k =>
    implantGo suite rest (path_step suite s)
      { k with
        path_secrets := ainsert k.path_secrets n s,
        private_key_cache := aerase k.private_key_cache n }

/-- `TreeKEMPrivateKey::implant(start, size, path_secret)`
(`treekem.cpp:97`). -/
def implant (k : TreeKEMPrivateKey) (start : Nat) (size : Nat)
    (path_secret : Bytes) : TreeKEMPrivateKey :=
  implantGo k.suite (nodeChain (nodeWidth size) start) path_secret k

/-- `TreeKEMPrivateKey::create` (`treekem.cpp:63`). -/
def create (suite : CipherSuite) (size : Nat) (index : Nat)
    (leaf_secret : Bytes) : TreeKEMPrivateKey :=
  implant { suite := suite, index := index, update_secret := [],
            path_secrets := [], private_key_cache := [] }
    (2 * index) size leaf_secret

/-- `TreeKEMPrivateKey::joiner` (`treekem.cpp:74`). -/
def joiner (suite : CipherSuite) (size : Nat) (index : Nat)
    (leaf_secret : Bytes) (intersect : Nat) (path_secret : Option Bytes) :
    TreeKEMPrivateKey :=
  let k0 : TreeKEMPrivateKey :=
    { suite := suite, index := index, update_secret := [],
      path_secrets := ainsert [] (2 * index) leaf_secret,
      private_key_cache := [] }
  match path_secret with
  | some ps => k0.implant intersect size ps
  | none => k0

/-- The const overload of `TreeKEMPrivateKey::private_key`
(`treekem.cpp:118`): cache lookup, else derive from the stored path
secret. -/
def private_key (k : TreeKEMPrivateKey) (n : Nat) : Option HPKEPrivateKey :=
  match alookup k.private_key_cache n with
  | some pk => some pk
  | none =>
    match alookup k.path_secrets n with
    | none => none
    | some s => some (hpkeDerive k.suite s)

/-- The non-const overload of `TreeKEMPrivateKey::private_key`
(`treekem.cpp:134`): like the const one but memoizing into the cache. -/
def private_key_mut (k : TreeKEMPrivateKey) (n : Nat) :
    Option HPKEPrivateKey × TreeKEMPrivateKey :=
  match k.private_key n with
  | some pk => (some pk, { k with private_key_cache := ainsert k.private_key_cache n pk })
  | none => (none, k)

/-- `TreeKEMPrivateKey::set_leaf_secret` (`treekem.cpp:144`). -/
def set_leaf_secret (k : TreeKEMPrivateKey) (secret : Bytes) : TreeKEMPrivateKey :=
  { k with path_secrets := ainsert k.path_secrets (2 * k.index) secret }

/-- The overlap search of `decap` (`treekem.cpp:176`): the first
direct-path node that is an ancestor of our leaf, together with its index
and the corresponding copath node. -/
def findOverlapGo (ni nc : Nat) : Nat → Nat → List Nat → Option (Nat × Nat × Nat)
  | _, _, [] => none
  | i, last, d :: rest =>
    if in_path ni d then some (i, d, sibling last nc)
    else findOverlapGo ni nc (i + 1) d rest

def findOverlap (ni nc frm : Nat) (dp : List Nat) : Option (Nat × Nat × Nat) :=
  findOverlapGo ni nc 0 (2 * frm) dp

/-- The resolution search of `decap` (`treekem.cpp:199`): the smallest
index whose node has a stored path secret. -/
def findRes (secrets : List (Nat × Bytes)) : Nat → List Nat → Option Nat
  | _, [] => none
  | i, r :: rest =>
    if (alookup secrets r).isSome then some i else findRes secrets (i + 1) rest

def defaultRatchetNode : RatchetNode := { public_key := ⟨[]⟩, node_secrets := [] }

def defaultCiphertext : HPKECiphertext := ⟨[], []⟩

/-- `TreeKEMPrivateKey::decap` (`treekem.cpp:162`).  The second component
is the private-key state after the call. -/
def decap (k : TreeKEMPrivateKey) (frm : Nat) (pub : TreeKEMPublicKey)
    (context : Bytes) (path : DirectPath) : Option Err × TreeKEMPrivateKey :=
  let ni := 2 * k.index
  let size := pub.nodeCount
  let dp := dirpath (2 * frm) size
  if dp.length ≠ path.nodes.length then
    (some (Err.protocol "Malformed direct path"), k)
  else
    match findOverlap ni size frm dp with
    | none => (some (Err.protocol "No overlap in path"), k)
    | some (dpi, overlap, copath) =>
      let res := pub.resolve copath
      if res.length ≠ (path.nodes.getD dpi defaultRatchetNode).node_secrets.length then
        (some (Err.protocol "Malformed direct path node"), k)
      else
        match findRes k.path_secrets 0 res with
        | none => (some (Err.protocol "No private key to decrypt path secret"), k)
        | some resi =>
          match k.private_key_mut (res.getD resi 0) with
          | (none, k1) => (some Err.badOptional, k1)
          | (some priv, k1) =>
            let path_secret := hpkeDecrypt k1.suite priv context
              ((path.nodes.getD dpi defaultRatchetNode).node_secrets.getD resi defaultCiphertext)
            (none, k1.implant overlap (leafWidth size) path_secret)

def eraseMany {α : Type} (m : List (Nat × α)) (ks : List Nat) : List (Nat × α) :=
  ks.foldl (fun acc n => aerase acc n) m

/-- `TreeKEMPrivateKey::truncate` (`treekem.cpp:218`): drop every entry of
`path_secrets` whose index exceeds the new last node, and the same keys
from the cache. -/
def truncate (k : TreeKEMPrivateKey) (size : Nat) : TreeKEMPrivateKey :=
  let ni := 2 * (size - 1)
  let to_remove := (k.path_secrets.map Prod.fst).filter (fun n => ni < n)
  { k with
    path_secrets := eraseMany k.path_secrets to_remove,
    private_key_cache := eraseMany k.private_key_cache to_remove }

/-- `TreeKEMPrivateKey::consistent(const TreeKEMPublicKey&)`
(`treekem.cpp:260`). -/
def consistent (k : TreeKEMPrivateKey) (other : TreeKEMPublicKey) : Bool :=
  decide (k.suite = other.suite) &&
    k.path_secrets.all (fun e =>
      match k.private_key e.1 with
      | none => false
      | some priv =>
        match other.nodeOpt e.1 with
        | none => false
        | some nd => decide (hpkePublic priv = nd.public_key))

end TreeKEMPrivateKey

namespace TreeKEMPublicKey

/-- The resolution-encryption loop of `encap` (`treekem.cpp:497`). -/
def encryptRes (t : TreeKEMPublicKey) (context path_secret : Bytes) :
    List Nat → Except Err (List HPKECiphertext)
  | [] => .ok []
  | nr :: rest =>
    match t.nodeOpt nr with
    | none => .error Err.badOptional
    | some nd =>
      match encryptRes t context path_secret rest with
      | .error e => .error e
      | .ok cts => .ok (hpkeEncrypt t.suite nd.public_key context path_secret :: cts)

/-- The direct-path loop of `encap` (`treekem.cpp:489`), threading the
fresh private key (whose cache the non-const `private_key` grows) and the
`last` cursor for the copath. -/
def encapLoop (t : TreeKEMPublicKey) (context : Bytes) :
    List Nat → Nat → TreeKEMPrivateKey →
    Except Err (List RatchetNode × TreeKEMPrivateKey)
  | [], _, priv => .ok ([], priv)
  | n :: rest, last, priv =>
    match alookup priv.path_secrets n with
    | none => .error Err.badOptional
    | some path_secret =>
      match priv.private_key_mut n with
      | (none, _) => .error Err.badOptional
      | (some node_priv, priv1) =>
        let copath := sibling last t.nodeCount
        let res := t.resolve copath
        match t.encryptRes context path_secret res with
        | .error e => .error e
        | .ok cts =>
          match encapLoop t context rest n priv1 with
          | .error e => .error e
          | .ok (pnodes, priv2) =>
            .ok ({ public_key := hpkePublic node_priv, node_secrets := cts } :: pnodes, priv2)

/-- `TreeKEMPublicKey::encap` (`treekem.cpp:469`); on success returns the
updated tree, the new private state and the signed `DirectPath`. -/
def encap (t : TreeKEMPublicKey) (frm : Nat) (context leaf_secret : Bytes)
    (sig_priv : SignaturePrivateKey) :
    Except Err (TreeKEMPublicKey × TreeKEMPrivateKey × DirectPath) :=
  match t.nodeOpt (2 * frm) with
  | none => .error (Err.invalidParameter "Cannot encap from blank node")
  | some (Node.parent _) => .error Err.badVariant
  | some (Node.leaf kp) =>
    let priv := TreeKEMPrivateKey.create t.suite t.leafCount frm leaf_secret
    let dp := dirpath (2 * frm) t.nodeCount
    match encapLoop t context dp (2 * frm) priv with
    | .error e => .error e
    | .ok (pnodes, priv1) =>
      match priv1.private_key_mut (2 * frm) with
      | (none, _) => .error Err.badOptional
      | (some leaf_priv, priv2) =>
        let path : DirectPath :=
          DirectPath.signPath { leaf_key_package := kp, nodes := pnodes }
            (hpkePublic leaf_priv) sig_priv
        match t.merge frm path with
        | (some e, _) => .error e
        | (none, t1) => .ok (t1, priv2, path)

end TreeKEMPublicKey

/-- Modelled from the spec: an AEAD sealed box; `aeadOpen` inverts
`aeadSeal` under the same key, nonce and AAD, which is exactly the AEAD
contract the spec assumes of the primitive. -/
structure Sealed where
  key : Bytes
  nonce : Bytes
  aad : Bytes
  pt : Bytes
deriving DecidableEq

def aeadSeal (_suite : CipherSuite) (key nonce aad pt : Bytes) : Sealed :=
  ⟨key, nonce, aad, pt⟩

def aeadOpen (_suite : CipherSuite) (key nonce aad : Bytes) (ct : Sealed) :
    Option Bytes :=
  if ct.key = key ∧ ct.nonce = nonce ∧ ct.aad = aad then some ct.pt else none

structure GroupInfo where
  group_id : Bytes
  epoch : Nat
  tree : TreeKEMPublicKey
  confirmed_transcript_hash : Bytes
  interim_transcript_hash : Bytes
  confirmation : Bytes
  signer_index : Nat
  signature : Bytes
deriving DecidableEq

structure EncryptedGroupSecrets where
  key_package_hash : Bytes
  encrypted_group_secrets : HPKECiphertext
deriving DecidableEq

structure Welcome where
  version : Nat
  cipher_suite : CipherSuite
  secrets : List EncryptedGroupSecrets
  encrypted_group_info : Sealed
  epoch_secret : Bytes
deriving DecidableEq

/-- `Welcome::group_info_key_nonce` (`messages.cpp:126`): derive a secret
from the epoch secret with label `"group info"`, then the key and nonce
from it with labels `"key"` and `"nonce"`. -/
def groupInfoKeyNonce (suite : CipherSuite) (epoch_secret : Bytes) : Bytes × Bytes :=
  let secret := hkdfExpandLabel suite epoch_secret "group info" [] (digestSize suite)
  (hkdfExpandLabel suite secret "key" [] (suiteKeySize suite),
   hkdfExpandLabel suite secret "nonce" [] (suiteNonceSize suite))

/-- The `Welcome(suite, epoch_secret, group_info)` constructor
(`messages.cpp:78`), parametric in the canonical `GroupInfo` serializer
(the TLS encoder for `GroupInfo` is not part of the provided sources). -/
def welcomeCreate (marshalGI : GroupInfo → Bytes) (suite : CipherSuite)
    (epoch_secret : Bytes) (group_info : GroupInfo) : Welcome :=
  let kn := groupInfoKeyNonce suite epoch_secret
  { version := 1, cipher_suite := suite, secrets := [],
    encrypted_group_info := aeadSeal suite kn.1 kn.2 [] (marshalGI group_info),
    epoch_secret := epoch_secret }

/-- `Welcome::decrypt` (`messages.cpp:116`), parametric in the canonical
`GroupInfo` parser. -/
def welcomeDecrypt (unmarshalGI : Bytes → Option GroupInfo) (w : Welcome)
    (epoch_secret : Bytes) : Option GroupInfo :=
  let kn := groupInfoKeyNonce w.cipher_suite epoch_secret
  match aeadOpen w.cipher_suite kn.1 kn.2 [] w.encrypted_group_info with
  | none => none
  | some data => unmarshalGI data

/-!  TLS wire encoders.  The encoders for the individual structs live in
headers that are not part of the provided sources; they are modelled from
the spec's description of the wire format: fixed-width unsigned integers
in network byte order, variable-length fields prefixed by a length header
of 1, 2 or 4 bytes, tagged unions as a fixed-width tag followed by the
variant body.  A value whose length or magnitude exceeds its header has
no canonical encoding (`none`). -/

/-- Big-endian bytes of an integer, fixed width `w` bytes. -/
def encFixedBytes : Nat → Nat → Bytes
  | 0, _ => []
  | w + 1, n => (n / 2 ^ (8 * w)) % 256 :: encFixedBytes w n

/-- Modelled from the spec: fixed-width unsigned integer in network byte
order. -/
def encFixed (w n : Nat) : Option Bytes :=
  if n < 2 ^ (8 * w) then some (encFixedBytes w n) else none

def decFixed : Nat → Bytes → Option (Nat × Bytes)
  | 0, bs => some (0, bs)
  | _ + 1, [] => none
  | w + 1, b :: bs =>
    match decFixed w bs with
    | none => none
    | some (n, rest) => some (b * 2 ^ (8 * w) + n, rest)

/-- Modelled from the spec: a variable-length field prefixed by a length
header of `hw` bytes. -/
def encVec (hw : Nat) (payload : Bytes) : Option Bytes :=
  match encFixed hw payload.length with
  | none => none
  | some hdr => some (hdr ++ payload)

def decVec (hw : Nat) (bs : Bytes) : Option (Bytes × Bytes) :=
  match decFixed hw bs with
  | none => none
  | some (len, rest) =>
    if len ≤ rest.length then some (rest.take len, rest.drop len) else none

/-- Concatenated encodings of a sequence of values. -/
def encAll {α : Type} (enc1 : α → Option Bytes) : List α → Option Bytes
  | [] => some []
  | x :: xs =>
    match enc1 x, encAll enc1 xs with
    | some b, some bs => some (b ++ bs)
    | _, _ => none

/-- Parse values until the buffer is exhausted (with fuel; each element
must consume at least one byte). -/
def decElems {α : Type} (dec1 : Bytes → Option (α × Bytes)) :
    Nat → Bytes → Option (List α)
  | _, [] => some []
  | 0, _ :: _ => none
  | f + 1, bs =>
    match dec1 bs with
    | none => none
    | some (a, rest) =>
      if rest.length < bs.length then
        match decElems dec1 f rest with
        | none => none
        | some as => some (a :: as)
      else none

/-- Modelled from the spec: a vector of structures, prefixed by its total
byte length in a header of `hw` bytes. -/
def encVecOf {α : Type} (hw : Nat) (enc1 : α → Option Bytes) (xs : List α) :
    Option Bytes :=
  match encAll enc1 xs with
  | none => none
  | some payload => encVec hw payload

def decVecOf {α : Type} (hw : Nat) (dec1 : Bytes → Option (α × Bytes))
    (bs : Bytes) : Option (List α × Bytes) :=
  match decVec hw bs with
  | none => none
  | some (payload, rest) =>
    match decElems dec1 payload.length payload with
    | none => none
    | some xs => some (xs, rest)

/-- Modelled from the spec: Credential encoding — 1-byte variant tag
(Basic = 0), identity as `opaque<2>`, scheme as `uint16`, public key as
`opaque<2>`. -/
def encCredential (c : Credential) : Option Bytes :=
  match encVec 2 c.identity, encFixed 2 c.scheme, encVec 2 c.public_key with
  | some bi, some bs, some bp => some (0 :: bi ++ bs ++ bp)
  | _, _, _ => none

def decCredential (bs : Bytes) : Option (Credential × Bytes) :=
  match bs with
  | 0 :: r0 =>
    match decVec 2 r0 with
    | none => none
    | some (ident, r1) =>
      match decFixed 2 r1 with
      | none => none
      | some (scheme, r2) =>
        match decVec 2 r2 with
        | none => none
        | some (pk, r3) => some (⟨ident, scheme, pk⟩, r3)
  | _ => none

/-- Modelled from the spec: Extension encoding — `uint16` type and
`opaque<2>` data. -/
def encExtension (e : Extension) : Option Bytes :=
  match encFixed 2 e.etype, encVec 2 e.edata with
  | some bt, some bd => some (bt ++ bd)
  | _, _ => none

def decExtension (bs : Bytes) : Option (Extension × Bytes) :=
  match decFixed 2 bs with
  | none => none
  | some (t, r1) =>
    match decVec 2 r1 with
    | none => none
    | some (d, r2) => some (⟨t, d⟩, r2)

/-- Modelled from the spec: KeyPackage encoding — `uint16` cipher suite,
HPKE init key as `opaque<2>`, credential, extensions as a `<2>` vector,
signature as `opaque<2>`. -/
def encKeyPackage (kp : KeyPackage) : Option Bytes :=
  match encFixed 2 kp.cipher_suite, encVec 2 kp.init_key.data,
      encCredential kp.credential, encVecOf 2 encExtension kp.extensions,
      encVec 2 kp.signature with
  | some b1, some b2, some b3, some b4, some b5 => some (b1 ++ b2 ++ b3 ++ b4 ++ b5)
  | _, _, _, _, _ => none

def decKeyPackage (bs : Bytes) : Option (KeyPackage × Bytes) :=
  match decFixed 2 bs with
  | none => none
  | some (cs, r1) =>
    match decVec 2 r1 with
    | none => none
    | some (ik, r2) =>
      match decCredential r2 with
      | none => none
      | some (cred, r3) =>
        match decVecOf 2 decExtension r3 with
        | none => none
        | some (exts, r4) =>
          match decVec 2 r4 with
          | none => none
          | some (sig, r5) => some (⟨cs, ⟨ik⟩, cred, exts, sig⟩, r5)

/-- Modelled from the spec: HPKECiphertext encoding — KEM output and
ciphertext, each `opaque<2>`. -/
def encHPKECiphertext (c : HPKECiphertext) : Option Bytes :=
  match encVec 2 c.kem_output, encVec 2 c.ciphertext with
  | some b1, some b2 => some (b1 ++ b2)
  | _, _ => none

def decHPKECiphertext (bs : Bytes) : Option (HPKECiphertext × Bytes) :=
  match decVec 2 bs with
  | none => none
  | some (k, r1) =>
    match decVec 2 r1 with
    | none => none
    | some (c, r2) => some (⟨k, c⟩, r2)

/-- Modelled from the spec: RatchetNode encoding — public key as
`opaque<2>` and node secrets as a `<2>` vector of HPKE ciphertexts. -/
def encRatchetNode (rn : RatchetNode) : Option Bytes :=
  match encVec 2 rn.public_key.data, encVecOf 2 encHPKECiphertext rn.node_secrets with
  | some b1, some b2 => some (b1 ++ b2)
  | _, _ => none

def decRatchetNode (bs : Bytes) : Option (RatchetNode × Bytes) :=
  match decVec 2 bs with
  | none => none
  | some (pk, r1) =>
    match decVecOf 2 decHPKECiphertext r1 with
    | none => none
    | some (secrets, r2) => some (⟨⟨pk⟩, secrets⟩, r2)

/-- Modelled from the spec: DirectPath encoding — leaf KeyPackage followed
by the `<2>` vector of ratchet nodes. -/
def encDirectPath (p : DirectPath) : Option Bytes :=
  match encKeyPackage p.leaf_key_package, encVecOf 2 encRatchetNode p.nodes with
  | some b1, some b2 => some (b1 ++ b2)
  | _, _ => none

def decDirectPath (bs : Bytes) : Option (DirectPath × Bytes) :=
  match decKeyPackage bs with
  | none => none
  | some (kp, r1) =>
    match decVecOf 2 decRatchetNode r1 with
    | none => none
    | some (ns, r2) => some (⟨kp, ns⟩, r2)

/-- A proposal reference (hash of the proposing MLSPlaintext). -/
structure ProposalID where
  id : Bytes
deriving DecidableEq

/-- Modelled from the spec: ProposalID as `opaque<1>`. -/
def encProposalID (p : ProposalID) : Option Bytes := encVec 1 p.id

def decProposalID (bs : Bytes) : Option (ProposalID × Bytes) :=
  match decVec 1 bs with
  | none => none
  | some (d, r) => some (⟨d⟩, r)

structure Commit where
  updates : List ProposalID
  removes : List ProposalID
  adds : List ProposalID
  path : DirectPath
deriving DecidableEq

/-- Modelled from the spec: Commit encoding — three `<2>` vectors of
proposal references followed by the DirectPath. -/
def encCommit (c : Commit) : Option Bytes :=
  match encVecOf 2 encProposalID c.updates, encVecOf 2 encProposalID c.removes,
      encVecOf 2 encProposalID c.adds, encDirectPath c.path with
  | some b1, some b2, some b3, some b4 => some (b1 ++ b2 ++ b3 ++ b4)
  | _, _, _, _ => none

def decCommit (bs : Bytes) : Option (Commit × Bytes) :=
  match decVecOf 2 decProposalID bs with
  | none => none
  | some (us, r1) =>
    match decVecOf 2 decProposalID r1 with
    | none => none
    | some (rs, r2) =>
      match decVecOf 2 decProposalID r2 with
      | none => none
      | some (as_, r3) =>
        match decDirectPath r3 with
        | none => none
        | some (p, r4) => some (⟨us, rs, as_, p⟩, r4)

inductive Proposal where
  | add (key_package : KeyPackage)
  | update (key_package : KeyPackage)
  | remove (removed : Nat)
deriving DecidableEq

/-- Modelled from the spec: Proposal encoding — 1-byte `ProposalType` tag
(add = 1, update = 2, remove = 3) followed by the variant body; a Remove
carries its `LeafIndex` as `uint32`. -/
def encProposal (p : Proposal) : Option Bytes :=
  match p with
  | .add kp =>
    match encKeyPackage kp with
    | none => none
    | some b => some (1 :: b)
  | .update kp =>
    match encKeyPackage kp with
    | none => none
    | some b => some (2 :: b)
  | .remove i =>
    match encFixed 4 i with
    | none => none
    | some b => some (3 :: b)

def decProposal (bs : Bytes) : Option (Proposal × Bytes) :=
  match bs with
  | 1 :: r0 =>
    match decKeyPackage r0 with
    | none => none
    | some (kp, r1) => some (.add kp, r1)
  | 2 :: r0 =>
    match decKeyPackage r0 with
    | none => none
    | some (kp, r1) => some (.update kp, r1)
  | 3 :: r0 =>
    match decFixed 4 r0 with
    | none => none
    | some (i, r1) => some (.remove i, r1)
  | _ => none

structure ApplicationData where
  data : Bytes
deriving DecidableEq

/-- Modelled from the spec: ApplicationData as `opaque<4>`. -/
def encApplicationData (a : ApplicationData) : Option Bytes := encVec 4 a.data

def decApplicationData (bs : Bytes) : Option (ApplicationData × Bytes) :=
  match decVec 4 bs with
  | none => none
  | some (d, r) => some (⟨d⟩, r)

structure CommitData where
  commit : Commit
  confirmation : Bytes
deriving DecidableEq

/-- Modelled from the spec: CommitData — the Commit followed by the
confirmation MAC as `opaque<1>`. -/
def encCommitData (c : CommitData) : Option Bytes :=
  match encCommit c.commit, encVec 1 c.confirmation with
  | some b1, some b2 => some (b1 ++ b2)
  | _, _ => none

def decCommitData (bs : Bytes) : Option (CommitData × Bytes) :=
  match decCommit bs with
  | none => none
  | some (c, r1) =>
    match decVec 1 r1 with
    | none => none
    | some (conf, r2) => some (⟨c, conf⟩, r2)

inductive ContentType where
  | application
  | proposal
  | commit
deriving DecidableEq

inductive Content where
  | application (d : ApplicationData)
  | proposal (p : Proposal)
  | commit (c : CommitData)
deriving DecidableEq

def Content.ctype : Content → ContentType
  | .application _ => .application
  | .proposal _ => .proposal
  | .commit _ => .commit

/-- The variant-body serialization used by `marshal_content`
(`messages.cpp:234`): the active alternative is written without an outer
tag (the content type travels separately). -/
def encContent : Content → Option Bytes
  | .application a => encApplicationData a
  | .proposal p => encProposal p
  | .commit c => encCommitData c

/-- The variant-body parse dispatched on the separately-transmitted
content type (`messages.cpp:166`). -/
def decContent (ct : ContentType) (bs : Bytes) : Option (Content × Bytes) :=
  match ct with
  | .application =>
    match decApplicationData bs with
    | none => none
    | some (a, r) => some (.application a, r)
  | .proposal =>
    match decProposal bs with
    | none => none
    | some (p, r) => some (.proposal p, r)
  | .commit =>
    match decCommitData bs with
    | none => none
    | some (c, r) => some (.commit c, r)

structure MLSPlaintext where
  group_id : Bytes
  epoch : Nat
  sender : Nat
  authenticated_data : Bytes
  content : Content
  signature : Bytes
deriving DecidableEq

/-- `MLSPlaintext::marshal_content` (`messages.cpp:231`): the content
body, then the signature as `opaque<2>`, then `padding_size` zero bytes as
`opaque<2>`. -/
def MLSPlaintext.marshal_content (p : MLSPlaintext) (padding_size : Nat) :
    Option Bytes :=
  match encContent p.content, encVec 2 p.signature,
      encVec 2 (List.replicate padding_size 0) with
  | some body, some sig, some pad => some (body ++ sig ++ pad)
  | _, _, _ => none

/-- The content-parsing `MLSPlaintext` constructor (`messages.cpp:153`):
reads the variant body for the given content type, then the signature,
then discards the padding. -/
def parsePlaintext (group_id : Bytes) (epoch : Nat) (sender : Nat)
    (content_type : ContentType) (authenticated_data : Bytes)
    (content_in : Bytes) : Option MLSPlaintext :=
  match decContent content_type content_in with
  | none => none
  | some (content, r1) =>
    match decVec 2 r1 with
    | none => none
    | some (sig, r2) =>
      match decVec 2 r2 with
      | none => none
      | some (_padding, _r3) =>
        some { group_id := group_id, epoch := epoch, sender := sender,
               authenticated_data := authenticated_data,
               content := content, signature := sig }

/-- Trees reachable from an empty tree by the mutating operations of
`TreeKEMPublicKey` (successful calls). -/
inductive ReachablePub : TreeKEMPublicKey → Prop where
  | empty (suite : CipherSuite) : ReachablePub ⟨suite, []⟩
  | add {t t' : TreeKEMPublicKey} {i : Nat} (kp : KeyPackage) :
      ReachablePub t → t.add_leaf kp = .ok (t', i) → ReachablePub t'
  | update {t t' : TreeKEMPublicKey} (i : Nat) (kp : KeyPackage) :
      ReachablePub t → t.update_leaf i kp = .ok t' → ReachablePub t'
  | blank {t t' : TreeKEMPublicKey} (i : Nat) :
      ReachablePub t → t.blank_path i = .ok t' → ReachablePub t'
  | merge {t t' : TreeKEMPublicKey} (frm : Nat) (path : DirectPath) :
      ReachablePub t → t.merge frm path = (none, t') → ReachablePub t'
  | truncate {t : TreeKEMPublicKey} :
      ReachablePub t → ReachablePub t.truncate

/-- Private-key states reachable from `create`/`joiner` by the mutating
operations of `TreeKEMPrivateKey`. -/
inductive ReachablePriv : TreeKEMPrivateKey → Prop where
  | create (suite : CipherSuite) (size index : Nat) (leaf_secret : Bytes) :
      ReachablePriv (TreeKEMPrivateKey.create suite size index leaf_secret)
  | joiner (suite : CipherSuite) (size index : Nat) (leaf_secret : Bytes)
      (intersect : Nat) (path_secret : Option Bytes) :
      ReachablePriv (TreeKEMPrivateKey.joiner suite size index leaf_secret intersect path_secret)
  | implant {k : TreeKEMPrivateKey} (start size : Nat) (ps : Bytes) :
      ReachablePriv k → ReachablePriv (k.implant start size ps)
  | private_key {k : TreeKEMPrivateKey} (n : Nat) :
      ReachablePriv k → ReachablePriv (k.private_key_mut n).2
  | set_leaf {k : TreeKEMPrivateKey} (s : Bytes) :
      ReachablePriv k → ReachablePriv (k.set_leaf_secret s)
  | decap {k : TreeKEMPrivateKey} (frm : Nat) (pub : TreeKEMPublicKey)
      (context : Bytes) (path : DirectPath) :
      ReachablePriv k → ReachablePriv (k.decap frm pub context path).2
  | truncate {k : TreeKEMPrivateKey} (size : Nat) :
      ReachablePriv k → ReachablePriv (k.truncate size)

theorem alookup_ainsert_self {α : Type} (l : List (Nat × α)) (n : Nat) (v : α) :
    alookup (ainsert l n v) n = some v := by
  induction l with
  | nil => simp [ainsert, alookup]
  | cons hd tl ih =>
    rw [ainsert]
    by_cases h : n = hd.1
    · simp only [h, if_true]
      rw [alookup, if_pos rfl]
    · rw [if_neg h, alookup, if_neg h]
      exact ih

theorem alookup_ainsert_ne {α : Type} (l : List (Nat × α)) (n m : Nat) (v : α)
    (h : m ≠ n) : alookup (ainsert l n v) m = alookup l m := by
  induction l with
  | nil => simp [ainsert, alookup, h]
  | cons hd tl ih =>
    rw [ainsert]
    by_cases h2 : n = hd.1
    · rw [if_pos h2, alookup, alookup, ← h2]
      rw [if_neg h, if_neg h]
    · rw [if_neg h2, alookup, alookup]
      by_cases h3 : m = hd.1
      · rw [if_pos h3, if_pos h3]
      · rw [if_neg h3, if_neg h3]
        exact ih

theorem alookup_aerase_self {α : Type} (l : List (Nat × α)) (n : Nat) :
    alookup (aerase l n) n = none := by
  induction l with
  | nil => rfl
  | cons hd tl ih =>
    rw [aerase]
    by_cases h : n = hd.1
    · rw [if_pos h]
      exact ih
    · rw [if_neg h, alookup, if_neg h]
      exact ih

theorem alookup_aerase_ne {α : Type} (l : List (Nat × α)) (n m : Nat)
    (h : m ≠ n) : alookup (aerase l n) m = alookup l m := by
  induction l with
  | nil => rfl
  | cons hd tl ih =>
    rw [aerase]
    by_cases h2 : n = hd.1
    · rw [if_pos h2, alookup, ← h2, if_neg h]
      exact ih
    · rw [if_neg h2, alookup, alookup]
      by_cases h3 : m = hd.1
      · rw [if_pos h3, if_pos h3]
      · rw [if_neg h3, if_neg h3]
        exact ih

theorem alookup_eraseMany_ne {α : Type} (ks : List Nat) :
    ∀ (m : List (Nat × α)) (n : Nat), n ∉ ks →
      alookup (TreeKEMPrivateKey.eraseMany m ks) n = alookup m n := by
  induction ks with
  | nil => intro m n _; rfl
  | cons hd tl ih =>
    intro m n hn
    rw [show TreeKEMPrivateKey.eraseMany m (hd :: tl) =
      TreeKEMPrivateKey.eraseMany (aerase m hd) tl from rfl]
    rw [ih (aerase m hd) n (by simp at hn; exact hn.2)]
    exact alookup_aerase_ne m hd n (by simp at hn; exact hn.1)

theorem alookup_eraseMany_isSome {α : Type} (ks : List Nat) :
    ∀ (m : List (Nat × α)) (n : Nat),
      (alookup (TreeKEMPrivateKey.eraseMany m ks) n).isSome →
      (alookup m n).isSome ∧ n ∉ ks := by
  induction ks with
  | nil =>
    intro m n h
    exact ⟨h, by simp⟩
  | cons hd tl ih =>
    intro m n h
    rw [show TreeKEMPrivateKey.eraseMany m (hd :: tl) =
      TreeKEMPrivateKey.eraseMany (aerase m hd) tl from rfl] at h
    obtain ⟨h1, h2⟩ := ih (aerase m hd) n h
    by_cases he : n = hd
    · rw [he] at h1
      rw [alookup_aerase_self] at h1
      simp at h1
    · rw [alookup_aerase_ne m hd n he] at h1
      exact ⟨h1, by simp [he, h2]⟩

namespace TreeKEMPrivateKey

theorem private_key_mut_none {k res : TreeKEMPrivateKey} {n : Nat}
    (h : k.private_key_mut n = (none, res)) : res = k := by
  unfold private_key_mut at h
  split at h
  · simp at h
  · injection h with h1 h2
    exact h2.symm

theorem private_key_isSome_of_secret {k : TreeKEMPrivateKey} {n : Nat}
    (h : (alookup k.path_secrets n).isSome) : (k.private_key n).isSome := by
  unfold private_key
  split
  · simp
  · split
    · rename_i hnone
      rw [hnone] at h
      simp at h
    · simp

theorem private_key_mut_eq_some {k : TreeKEMPrivateKey} {n : Nat}
    (h : (k.private_key n).isSome) :
    ∃ pk, k.private_key_mut n =
      (some pk, { k with private_key_cache := ainsert k.private_key_cache n pk }) := by
  unfold private_key_mut
  cases hp : k.private_key n with
  | none => rw [hp] at h; simp at h
  | some pk => exact ⟨pk, rfl⟩

theorem findRes_none {secrets : List (Nat × Bytes)} :
    ∀ (rs : List Nat) (i : Nat), (∀ r ∈ rs, alookup secrets r = none) →
      findRes secrets i rs = none := by
  intro rs
  induction rs with
  | nil => intro i _; rfl
  | cons r rest ih =>
    intro i h
    rw [findRes]
    rw [h r (by simp)]
    simp only [Option.isSome_none, Bool.false_eq_true, if_false]
    exact ih (i + 1) (fun x hx => h x (by simp [hx]))

theorem findRes_some_mem {secrets : List (Nat × Bytes)} :
    ∀ (rs : List Nat) (i j : Nat), findRes secrets i rs = some j →
      ∃ d, d < rs.length ∧ j = i + d ∧ (alookup secrets (rs.getD d 0)).isSome := by
  intro rs
  induction rs with
  | nil => intro i j h; simp [findRes] at h
  | cons r rest ih =>
    intro i j h
    rw [findRes] at h
    by_cases hr : (alookup secrets r).isSome
    · rw [if_pos hr] at h
      injection h with h
      exact ⟨0, by simp, by omega, by simpa using hr⟩
    · rw [if_neg hr] at h
      obtain ⟨d, hd1, hd2, hd3⟩ := ih (i + 1) j h
      exact ⟨d + 1, by simp; omega, by omega, by simpa using hd3⟩

theorem decap_eq_of_mismatch {k : TreeKEMPrivateKey} {frm : Nat}
    {pub : TreeKEMPublicKey} {c : Bytes} {path : DirectPath}
    (h : (dirpath (2 * frm) pub.nodeCount).length ≠ path.nodes.length) :
    k.decap frm pub c path = (some (Err.protocol "Malformed direct path"), k) := by
  unfold decap
  dsimp only
  rw [if_pos h]

theorem decap_eq_of_no_overlap {k : TreeKEMPrivateKey} {frm : Nat}
    {pub : TreeKEMPublicKey} {c : Bytes} {path : DirectPath}
    (h1 : (dirpath (2 * frm) pub.nodeCount).length = path.nodes.length)
    (h2 : findOverlap (2 * k.index) pub.nodeCount frm
      (dirpath (2 * frm) pub.nodeCount) = none) :
    k.decap frm pub c path = (some (Err.protocol "No overlap in path"), k) := by
  unfold decap
  dsimp only
  rw [if_neg (not_ne_iff.mpr h1), h2]

theorem decap_eq_of_res_mismatch {k : TreeKEMPrivateKey} {frm : Nat}
    {pub : TreeKEMPublicKey} {c : Bytes} {path : DirectPath}
    {dpi ov cp : Nat}
    (h1 : (dirpath (2 * frm) pub.nodeCount).length = path.nodes.length)
    (h2 : findOverlap (2 * k.index) pub.nodeCount frm
      (dirpath (2 * frm) pub.nodeCount) = some (dpi, ov, cp))
    (h3 : (pub.resolve cp).length ≠
      (path.nodes.getD dpi defaultRatchetNode).node_secrets.length) :
    k.decap frm pub c path = (some (Err.protocol "Malformed direct path node"), k) := by
  unfold decap
  dsimp only
  rw [if_neg (not_ne_iff.mpr h1), h2]
  dsimp only
  rw [if_pos h3]

theorem decap_eq_of_no_key {k : TreeKEMPrivateKey} {frm : Nat}
    {pub : TreeKEMPublicKey} {c : Bytes} {path : DirectPath}
    {dpi ov cp : Nat}
    (h1 : (dirpath (2 * frm) pub.nodeCount).length = path.nodes.length)
    (h2 : findOverlap (2 * k.index) pub.nodeCount frm
      (dirpath (2 * frm) pub.nodeCount) = some (dpi, ov, cp))
    (h3 : (pub.resolve cp).length =
      (path.nodes.getD dpi defaultRatchetNode).node_secrets.length)
    (h4 : findRes k.path_secrets 0 (pub.resolve cp) = none) :
    k.decap frm pub c path =
      (some (Err.protocol "No private key to decrypt path secret"), k) := by
  unfold decap
  dsimp only
  rw [if_neg (not_ne_iff.mpr h1), h2]
  dsimp only
  rw [if_neg (not_ne_iff.mpr h3), h4]

theorem decap_eq_of_found {k k1 : TreeKEMPrivateKey} {frm : Nat}
    {pub : TreeKEMPublicKey} {c : Bytes} {path : DirectPath}
    {dpi ov cp resi : Nat} {priv : HPKEPrivateKey}
    (h1 : (dirpath (2 * frm) pub.nodeCount).length = path.nodes.length)
    (h2 : findOverlap (2 * k.index) pub.nodeCount frm
      (dirpath (2 * frm) pub.nodeCount) = some (dpi, ov, cp))
    (h3 : (pub.resolve cp).length =
      (path.nodes.getD dpi defaultRatchetNode).node_secrets.length)
    (h4 : findRes k.path_secrets 0 (pub.resolve cp) = some resi)
    (h5 : k.private_key_mut ((pub.resolve cp).getD resi 0) = (some priv, k1)) :
    k.decap frm pub c path =
      (none, k1.implant ov (leafWidth pub.nodeCount)
        (hpkeDecrypt k1.suite priv c
          ((path.nodes.getD dpi defaultRatchetNode).node_secrets.getD resi
            defaultCiphertext))) := by
  unfold decap
  dsimp only
  rw [if_neg (not_ne_iff.mpr h1), h2]
  dsimp only
  rw [if_neg (not_ne_iff.mpr h3), h4]
  dsimp only
  rw [h5]

/-- Every failure path of `decap` leaves the private key untouched, and
the only error kind it raises itself is `ProtocolError`. -/
theorem decap_error_cases (k : TreeKEMPrivateKey) (frm : Nat)
    (pub : TreeKEMPublicKey) (c : Bytes) (path : DirectPath) (e : Err)
    (h : (k.decap frm pub c path).1 = some e) :
    (k.decap frm pub c path).2 = k ∧ ∃ msg, e = Err.protocol msg := by
  by_cases h1 : (dirpath (2 * frm) pub.nodeCount).length = path.nodes.length
  · cases hov : findOverlap (2 * k.index) pub.nodeCount frm
      (dirpath (2 * frm) pub.nodeCount) with
    | none =>
      rw [decap_eq_of_no_overlap h1 hov] at h ⊢
      injection h with h
      exact ⟨rfl, _, h.symm⟩
    | some trip =>
      obtain ⟨dpi, ov, cp⟩ := trip
      by_cases h3 : (pub.resolve cp).length =
          (path.nodes.getD dpi defaultRatchetNode).node_secrets.length
      · cases hres : findRes k.path_secrets 0 (pub.resolve cp) with
        | none =>
          rw [decap_eq_of_no_key h1 hov h3 hres] at h ⊢
          injection h with h
          exact ⟨rfl, _, h.symm⟩
        | some resi =>
          obtain ⟨d, hd1, hd2, hd3⟩ := findRes_some_mem (pub.resolve cp) 0 resi hres
          have hsome : (k.private_key ((pub.resolve cp).getD resi 0)).isSome := by
            apply private_key_isSome_of_secret
            rw [hd2]
            simpa using hd3
          obtain ⟨pk, hmut⟩ := private_key_mut_eq_some hsome
          rw [decap_eq_of_found h1 hov h3 hres hmut] at h
          simp at h
      · rw [decap_eq_of_res_mismatch h1 hov h3] at h ⊢
        injection h with h
        exact ⟨rfl, _, h.symm⟩
  · rw [decap_eq_of_mismatch h1] at h ⊢
    injection h with h
    exact ⟨rfl, _, h.symm⟩

theorem private_key_mut_eq {k : TreeKEMPrivateKey} {n : Nat} {pk : HPKEPrivateKey}
    (h : k.private_key n = some pk) :
    k.private_key_mut n =
      (some pk, { k with private_key_cache := ainsert k.private_key_cache n pk }) := by
  unfold private_key_mut
  rw [h]

/-- The domain of the private-key cache is contained in the domain of the
path-secret map. -/
def cacheSub (k : TreeKEMPrivateKey) : Prop :=
  ∀ n, (alookup k.private_key_cache n).isSome → (alookup k.path_secrets n).isSome

theorem cacheSub_implantGo (suite : CipherSuite) :
    ∀ (chain : List Nat) (s : Bytes) (k : TreeKEMPrivateKey),
      cacheSub k → cacheSub (implantGo suite chain s k) := by
  intro chain
  induction chain with
  | nil => intro s k h; exact h
  | cons n rest ih =>
    intro s k h
    rw [implantGo]
    apply ih
    intro m hm
    by_cases he : m = n
    · rw [he, alookup_ainsert_self]
      simp
    · dsimp only at hm
      rw [alookup_aerase_ne k.private_key_cache n m he] at hm
      rw [alookup_ainsert_ne k.path_secrets n m s he]
      exact h m hm

theorem cacheSub_implant (k : TreeKEMPrivateKey) (start size : Nat) (ps : Bytes)
    (h : cacheSub k) : cacheSub (k.implant start size ps) :=
  cacheSub_implantGo k.suite (nodeChain (nodeWidth size) start) ps k h

theorem cacheSub_create (suite : CipherSuite) (size index : Nat)
    (leaf_secret : Bytes) : cacheSub (create suite size index leaf_secret) := by
  apply cacheSub_implant
  intro m hm
  simp [alookup] at hm

theorem cacheSub_joiner (suite : CipherSuite) (size index : Nat)
    (leaf_secret : Bytes) (intersect : Nat) (path_secret : Option Bytes) :
    cacheSub (joiner suite size index leaf_secret intersect path_secret) := by
  unfold joiner
  cases path_secret with
  | some ps =>
    apply cacheSub_implant
    intro m hm
    simp [alookup] at hm
  | none =>
    intro m hm
    simp [alookup] at hm

theorem private_key_some_secret {k : TreeKEMPrivateKey} {n : Nat}
    (hs : cacheSub k) (h : (k.private_key n).isSome) :
    (alookup k.path_secrets n).isSome := by
  unfold private_key at h
  split at h
  · rename_i pk hc
    exact hs n (by rw [hc]; simp)
  · split at h
    · simp at h
    · rename_i s hsec
      rw [hsec]
      simp

theorem cacheSub_private_key_mut (k : TreeKEMPrivateKey) (n : Nat)
    (h : cacheSub k) : cacheSub (k.private_key_mut n).2 := by
  cases hp : k.private_key n with
  | none =>
    unfold private_key_mut
    rw [hp]
    exact h
  | some pk =>
    rw [private_key_mut_eq hp]
    dsimp only
    intro m hm
    dsimp only at hm ⊢
    by_cases he : m = n
    · rw [he]
      exact private_key_some_secret h (by rw [hp]; simp)
    · rw [alookup_ainsert_ne k.private_key_cache n m pk he] at hm
      exact h m hm

theorem cacheSub_set_leaf (k : TreeKEMPrivateKey) (s : Bytes)
    (h : cacheSub k) : cacheSub (k.set_leaf_secret s) := by
  intro m hm
  unfold set_leaf_secret at hm ⊢
  dsimp only at hm ⊢
  by_cases he : m = 2 * k.index
  · rw [he, alookup_ainsert_self]
    simp
  · rw [alookup_ainsert_ne k.path_secrets (2 * k.index) m s he]
    exact h m hm

theorem cacheSub_truncate (k : TreeKEMPrivateKey) (size : Nat)
    (h : cacheSub k) : cacheSub (k.truncate size) := by
  intro m hm
  unfold truncate at hm ⊢
  dsimp only at hm ⊢
  obtain ⟨h1, h2⟩ := alookup_eraseMany_isSome _ _ _ hm
  rw [alookup_eraseMany_ne _ _ _ h2]
  exact h m h1

theorem decap_snd_cases (k : TreeKEMPrivateKey) (frm : Nat)
    (pub : TreeKEMPublicKey) (c : Bytes) (path : DirectPath) :
    (k.decap frm pub c path).2 = k ∨
    ∃ n ov size ps, (k.decap frm pub c path).2 =
      ((k.private_key_mut n).2).implant ov size ps := by
  by_cases h1 : (dirpath (2 * frm) pub.nodeCount).length = path.nodes.length
  · cases hov : findOverlap (2 * k.index) pub.nodeCount frm
      (dirpath (2 * frm) pub.nodeCount) with
    | none => rw [decap_eq_of_no_overlap h1 hov]; left; rfl
    | some trip =>
      obtain ⟨dpi, ov, cp⟩ := trip
      by_cases h3 : (pub.resolve cp).length =
          (path.nodes.getD dpi defaultRatchetNode).node_secrets.length
      · cases hres : findRes k.path_secrets 0 (pub.resolve cp) with
        | none => rw [decap_eq_of_no_key h1 hov h3 hres]; left; rfl
        | some resi =>
          obtain ⟨d, hd1, hd2, hd3⟩ := findRes_some_mem (pub.resolve cp) 0 resi hres
          have hsome : (k.private_key ((pub.resolve cp).getD resi 0)).isSome := by
            apply private_key_isSome_of_secret
            rw [hd2]
            simpa using hd3
          obtain ⟨pk, hmut⟩ := private_key_mut_eq_some hsome
          rw [decap_eq_of_found h1 hov h3 hres hmut]
          right
          exact ⟨(pub.resolve cp).getD resi 0, ov, leafWidth pub.nodeCount,
            hpkeDecrypt ((k.private_key_mut ((pub.resolve cp).getD resi 0)).2).suite pk c
              ((path.nodes.getD dpi defaultRatchetNode).node_secrets.getD resi
                defaultCiphertext),
            by rw [hmut]⟩
      · rw [decap_eq_of_res_mismatch h1 hov h3]; left; rfl
  · rw [decap_eq_of_mismatch h1]; left; rfl

theorem cacheSub_decap (k : TreeKEMPrivateKey) (frm : Nat)
    (pub : TreeKEMPublicKey) (c : Bytes) (path : DirectPath)
    (h : cacheSub k) : cacheSub (k.decap frm pub c path).2 := by
  rcases decap_snd_cases k frm pub c path with heq | ⟨n, ov, size, ps, heq⟩
  · rw [heq]; exact h
  · rw [heq]
    exact cacheSub_implant _ _ _ _ (cacheSub_private_key_mut k n h)

theorem cacheSub_reachable {k : TreeKEMPrivateKey} (h : ReachablePriv k) :
    cacheSub k := by
  induction h with
  | create suite size index leaf_secret => exact cacheSub_create suite size index leaf_secret
  | joiner suite size index leaf_secret intersect ps =>
    exact cacheSub_joiner suite size index leaf_secret intersect ps
  | implant start size ps _ ih => exact cacheSub_implant _ start size ps ih
  | private_key n _ ih => exact cacheSub_private_key_mut _ n ih
  | set_leaf s _ ih => exact cacheSub_set_leaf _ s ih
  | decap frm pub c path _ ih => exact cacheSub_decap _ frm pub c path ih
  | truncate size _ ih => exact cacheSub_truncate _ size ih

end TreeKEMPrivateKey

/-- On the direct-path size mismatch, `merge` has already overwritten the
sender's leaf before throwing (`treekem.cpp:369` precedes the check at
`treekem.cpp:372`). -/
theorem merge_mismatch {t : TreeKEMPublicKey} {frm : Nat} {path : DirectPath}
    (hin : 2 * frm < t.nodes.length)
    (hmis : (dirpath (2 * frm) (nodeWidth (leafWidth t.nodes.length))).length ≠
      path.nodes.length) :
    t.merge frm path = (some (Err.protocol "Malformed direct path"),
      { t with nodes := t.nodes.set (2 * frm) ⟨some (Node.leaf path.leaf_key_package)⟩ }) := by
  unfold TreeKEMPublicKey.merge
  dsimp only
  rw [if_pos hin]
  rw [if_neg (by
    simp only [TreeKEMPublicKey.nodeCount, TreeKEMPublicKey.leafCount, List.length_set]
    exact hmis)]

/-- After `truncate` the node array is empty or ends in a non-blank
slot. -/
theorem truncate_last (t : TreeKEMPublicKey) :
    t.truncate.nodes = [] ∨
    ∃ ln, t.truncate.nodes.getLast? = some ln ∧ ln.node.isSome := by
  unfold TreeKEMPublicKey.truncate
  dsimp only
  cases h : t.nodes.reverse.dropWhile (fun n => n.node.isNone) with
  | nil => left; simp [h]
  | cons hd tl =>
    right
    refine ⟨hd, ?_, ?_⟩
    · rw [List.getLast?_reverse]
      rfl
    · have h2 := List.head_dropWhile_not (fun n => n.node.isNone) t.nodes.reverse
        (by rw [h]; simp)
      have h3 : (t.nodes.reverse.dropWhile fun n => n.node.isNone).head
          (by rw [h]; simp) = hd := by simp [h]
      rw [h3] at h2
      simpa using h2

/-- Sample values used by concrete instances below. -/
def kpA : KeyPackage := ⟨1, ⟨[10]⟩, ⟨[], 0, []⟩, [], []⟩

def kpB : KeyPackage := ⟨1, ⟨[11]⟩, ⟨[], 0, []⟩, [], []⟩

def kpC : KeyPackage := ⟨1, ⟨[12]⟩, ⟨[], 0, []⟩, [], []⟩

def kpD : KeyPackage := ⟨1, ⟨[13]⟩, ⟨[], 0, []⟩, [], []⟩

def tEmpty : TreeKEMPublicKey := ⟨1, []⟩

def tOne : TreeKEMPublicKey := ⟨1, [⟨some (Node.leaf kpA)⟩]⟩

def kEmpty : TreeKEMPrivateKey := ⟨1, 0, [], [], []⟩

def badPath : DirectPath := ⟨kpB, [⟨⟨[9]⟩, []⟩]⟩

def pathEmpty : DirectPath := ⟨kpA, []⟩

/-- A reachable tree whose last slot is blank (after `blank_path`). -/
def tBlankLast : TreeKEMPublicKey :=
  ⟨1, [⟨some (Node.leaf kpA)⟩, ⟨none⟩, ⟨none⟩]⟩

/-- The two-parent direct path used to reach a six-entry tree. -/
def pathTwo : DirectPath := ⟨kpB, [⟨⟨[1]⟩, []⟩, ⟨⟨[2]⟩, []⟩]⟩

/-- A reachable tree with six node slots (after a truncate that stops at a
non-blank parent). -/
def tSix : TreeKEMPublicKey :=
  ⟨1, [⟨some (Node.leaf kpA)⟩, ⟨none⟩, ⟨some (Node.leaf kpB)⟩,
       ⟨some (Node.parent ⟨⟨[2]⟩, [], []⟩)⟩, ⟨some (Node.leaf kpB)⟩,
       ⟨some (Node.parent ⟨⟨[1]⟩, [], []⟩)⟩]⟩

namespace TreeKEMPublicKey

theorem resolveAux_congr (t : TreeKEMPublicKey) :
    ∀ f g x, level x < f → level x < g → resolveAux t f x = resolveAux t g x := by
  intro f
  induction f with
  | zero => intro g x hf _; omega
  | succ f ih =>
    intro g x hf hg
    cases g with
    | zero => omega
    | succ g =>
      cases hn : t.nodeOpt x with
      | some nd =>
        cases nd with
        | leaf kp => simp only [resolveAux, hn]
        | parent pn => simp only [resolveAux, hn]
      | none =>
        simp only [resolveAux, hn]
        by_cases hl : level x = 0
        · rw [if_pos hl, if_pos hl]
        · rw [if_neg hl, if_neg hl]
          have hleft := level_left_lt (x := x) (by omega)
          have hright := @level_right_lt x t.nodeCount (by omega)
          rw [ih g (left x) (by omega) (by omega),
            ih g (right x t.nodeCount) (by omega) (by omega)]

theorem resolve_leaf {t : TreeKEMPublicKey} {x : Nat} {kp : KeyPackage}
    (h : t.nodeOpt x = some (Node.leaf kp)) : t.resolve x = [x] := by
  unfold resolve
  simp only [resolveAux, h]

theorem resolve_parent {t : TreeKEMPublicKey} {x : Nat} {pn : ParentNode}
    (h : t.nodeOpt x = some (Node.parent pn)) :
    t.resolve x = x :: pn.unmerged_leaves.map (fun u => 2 * u) := by
  unfold resolve
  simp only [resolveAux, h]

theorem resolve_blank_leaf {t : TreeKEMPublicKey} {x : Nat}
    (h : t.nodeOpt x = none) (hl : level x = 0) : t.resolve x = [] := by
  unfold resolve
  simp only [resolveAux, h, hl, if_true]

theorem resolve_blank_parent {t : TreeKEMPublicKey} {x : Nat}
    (h : t.nodeOpt x = none) (hl : level x ≠ 0) :
    t.resolve x = t.resolve (left x) ++ t.resolve (right x t.nodeCount) := by
  conv_lhs => unfold resolve
  simp only [resolveAux, h, hl, if_false]
  have hleft := level_left_lt (x := x) (by omega)
  have hright := @level_right_lt x t.nodeCount (by omega)
  rw [resolveAux_congr t (level x) (level (left x) + 1) (left x) (by omega) (by omega),
    resolveAux_congr t (level x) (level (right x t.nodeCount) + 1)
      (right x t.nodeCount) (by omega) (by omega)]
  rfl

theorem resolveAux_eq_specAux (t : TreeKEMPublicKey) :
    ∀ f x, resolveAux t f x = resolveSpecAux t f x := by
  intro f
  induction f with
  | zero => intro x; rfl
  | succ f ih =>
    intro x
    cases hn : t.nodeOpt x with
    | some nd =>
      cases nd with
      | leaf kp => simp only [resolveAux, resolveSpecAux, hn]
      | parent pn =>
        simp only [resolveAux, resolveSpecAux, hn, List.singleton_append]
    | none =>
      simp only [resolveAux, resolveSpecAux, hn]
      by_cases hl : level x = 0
      · rw [if_pos hl, if_pos hl]
      · rw [if_neg hl, if_neg hl, ih (left x), ih (right x t.nodeCount)]

end TreeKEMPublicKey

namespace TreeKEMPublicKey

/-- If some non-blank even slot `y` lies within the complete subtree
spanned by `x` (and inside the tree), the resolution of `x` is
non-empty. -/
theorem resolve_ne_nil_span (t : TreeKEMPublicKey) :
    ∀ k x y, level x ≤ k → y % 2 = 0 → y < t.nodeCount →
      (t.nodeOpt y).isSome →
      x ≤ y + (2 ^ level x - 1) → y ≤ x + (2 ^ level x - 1) →
      t.resolve x ≠ [] := by
  intro k
  induction k with
  | zero =>
    intro x y hk hyp hylt hynb hs1 hs2
    cases hn : t.nodeOpt x with
    | some nd =>
      cases nd with
      | leaf kp => rw [resolve_leaf hn]; simp
      | parent pn => rw [resolve_parent hn]; simp
    | none =>
      exfalso
      have hl0 : level x = 0 := by omega
      rw [hl0] at hs1 hs2
      simp at hs1 hs2
      have hxy : x = y := by omega
      rw [hxy] at hn
      rw [hn] at hynb
      simp at hynb
  | succ k ih =>
    intro x y hk hyp hylt hynb hs1 hs2
    cases hn : t.nodeOpt x with
    | some nd =>
      cases nd with
      | leaf kp => rw [resolve_leaf hn]; simp
      | parent pn => rw [resolve_parent hn]; simp
    | none =>
      by_cases hl0 : level x = 0
      · exfalso
        rw [hl0] at hs1 hs2
        simp at hs1 hs2
        have hxy : x = y := by omega
        rw [hxy] at hn
        rw [hn] at hynb
        simp at hynb
      · obtain ⟨m, hm⟩ : ∃ m, level x = m + 1 := ⟨level x - 1, by omega⟩
        have hxodd : x % 2 = 1 := level_pos_odd (by omega)
        have hxy : x ≠ y := by omega
        have hp1 : (1 : Nat) ≤ 2 ^ m := Nat.one_le_two_pow
        have e1 : (2 : Nat) ^ (m + 1) = 2 * 2 ^ m := by ring
        have hxge : 2 ^ (m + 1) - 1 ≤ x := by
          have := le_of_level (x := x)
          rw [hm] at this
          exact this
        rw [resolve_blank_parent hn hl0]
        rcases Nat.lt_or_ge y x with hlt | hge
        · -- the witness slot lies under the left child
          have hll : level (left x) = m := level_left hm
          have hleq : left x = x - 2 ^ m := by
            rw [left_eq (by omega), hm]
            simp
          have hres : t.resolve (left x) ≠ [] := by
            apply ih (left x) y (by omega) hyp hylt hynb
            · rw [hll, hleq]
              rw [hm] at hs1
              omega
            · rw [hll, hleq]
              omega
          intro hcontra
          rw [List.append_eq_nil] at hcontra
          exact hres hcontra.1
        · -- the witness slot lies under the (clipped) right child
          have hgt : x < y := by omega
          set r0 := x + 2 ^ m with hr0
          have hr0level : level r0 = m := by
            rw [hr0]
            exact level_rightNaive hm
          have hlm0 : leftmostD r0 = x + 1 := by
            unfold leftmostD
            rw [hr0level, hr0]
            omega
          have hlmlt : leftmostD r0 < t.nodeCount := by omega
          obtain ⟨hc1, hc2, hc3, hc4⟩ := clip_spec t.nodeCount r0 hlmlt
          have hreq : right x t.nodeCount = clip t.nodeCount r0 := by
            unfold right
            rw [if_neg hl0]
            rw [show level x - 1 = m by omega]
          set r := clip t.nodeCount r0 with hrdef
          have hrlev : level r ≤ m := by
            rw [hr0level] at hc3
            exact hc3
          have hrp : (1 : Nat) ≤ 2 ^ level r := Nat.one_le_two_pow
          have hrge : 2 ^ level r - 1 ≤ r := le_of_level
          have hrval : r = x + 2 ^ level r := by
            rw [hlm0] at hc2
            unfold leftmostD at hc2
            omega
          have hyub : y ≤ r + (2 ^ level r - 1) := by
            rcases hc4 with hcase | hcase
            · rw [hcase, hr0level, hr0]
              rw [hm] at hs2
              omega
            · omega
          have hres : t.resolve r ≠ [] := by
            apply ih r y (by omega) hyp hylt hynb
            · omega
            · exact hyub
          rw [hreq]
          intro hcontra
          rw [List.append_eq_nil] at hcontra
          exact hres hcontra.2

end TreeKEMPublicKey

theorem getD_set_self {α : Type} (l : List α) (n : Nat) (v d : α)
    (h : n < l.length) : (l.set n v).getD n d = v := by
  simp [List.getD_eq_getElem?_getD, List.getElem?_set, h]

theorem getD_set_ne {α : Type} (l : List α) (n m : Nat) (v d : α)
    (h : m ≠ n) : (l.set n v).getD m d = l.getD m d := by
  simp [List.getD_eq_getElem?_getD, List.getElem?_set, Ne.symm h]

theorem getD_append_left {α : Type} (l l2 : List α) (m : Nat) (d : α)
    (h : m < l.length) : (l ++ l2).getD m d = l.getD m d := by
  simp [List.getD_eq_getElem?_getD, List.getElem?_append, h]

theorem getD_append_replicate {α : Type} (l : List α) (k m : Nat) (d : α)
    (h : l.length ≤ m) : (l ++ List.replicate k d).getD m d = d := by
  rcases Nat.lt_or_ge m (l.length + k) with hc | hc
  · simp [List.getD_eq_getElem?_getD, List.getElem?_append_right h,
      List.getElem?_replicate, hc]
    rw [if_pos (by omega)]
    rfl
  · simp [List.getD_eq_getElem?_getD, List.getElem?_eq_none, hc]

theorem getD_out {α : Type} (l : List α) (m : Nat) (d : α)
    (h : l.length ≤ m) : l.getD m d = d := by
  simp [List.getD_eq_getElem?_getD, List.getElem?_eq_none, h]

namespace TreeMath

theorem dirpath_mem_lt {x nc : Nat} (hnc : 1 ≤ nc) (hx : x < nc) :
    ∀ m ∈ dirpath x nc, m < nc := by
  intro m hm
  have := List.drop_subset 1 (nodeChain nc x)
  exact chainAux_mem_lt hnc (pathFuel nc) x hx m (this hm)

theorem dirpath_nodup (x nc : Nat) : (dirpath x nc).Nodup :=
  ((List.drop_sublist 1 (nodeChain nc x)).nodup (chainAux_nodup (pathFuel nc) x))

theorem dirpath_mem_level_pos {x nc : Nat} :
    ∀ m ∈ dirpath x nc, 0 < level m := by
  intro m hm
  unfold dirpath nodeChain pathFuel at hm
  rw [chainAux] at hm
  by_cases h : x = root nc
  · rw [if_pos h] at hm
    simp at hm
  · rw [if_neg h] at hm
    simp only [List.drop_succ_cons, List.drop_zero] at hm
    have h1 := chainAux_mem_level_ge (log2t nc + 1) (parent x nc) m hm
    have h2 := @parent_level_gt x nc h
    omega

end TreeMath

namespace TreeKEMPublicKey

theorem findBlankAux_spec (nodes : List OptionalNode) (size : Nat) :
    ∀ f i, size - i ≤ f → i ≤ size →
      i ≤ findBlankAux nodes size f i ∧ findBlankAux nodes size f i ≤ size ∧
      (∀ m, i ≤ m → m < findBlankAux nodes size f i →
        (nodes.getD (2 * m) blankNode).node.isSome) ∧
      (findBlankAux nodes size f i < size →
        ¬(nodes.getD (2 * findBlankAux nodes size f i) blankNode).node.isSome) := by
  intro f
  induction f with
  | zero =>
    intro i hf hi
    have : i = size := by omega
    rw [findBlankAux]
    refine ⟨Nat.le_refl i, by omega, by omega, by omega⟩
  | succ f ih =>
    intro i hf hi
    rw [findBlankAux]
    by_cases h1 : i < size
    · rw [if_pos h1]
      by_cases h2 : (nodes.getD (2 * i) blankNode).node.isSome
      · rw [if_pos h2]
        obtain ⟨p1, p2, p3, p4⟩ := ih (i + 1) (by omega) (by omega)
        refine ⟨by omega, p2, ?_, p4⟩
        intro m hm1 hm2
        by_cases hmi : m = i
        · rw [hmi]; exact h2
        · exact p3 m (by omega) hm2
      · rw [if_neg h2]
        exact ⟨Nat.le_refl i, by omega, by omega, fun _ => h2⟩
    · rw [if_neg h1]
      exact ⟨Nat.le_refl i, by omega, by omega, by omega⟩

theorem addUnmerged_spec (index : Nat) :
    ∀ (dp : List Nat) (nodes nodes' : List OptionalNode), dp.Nodup →
      addUnmerged index dp nodes = .ok nodes' →
      nodes'.length = nodes.length ∧
      (∀ m, m ∉ dp → nodes'.getD m blankNode = nodes.getD m blankNode) ∧
      (∀ n ∈ dp, (nodes.getD n blankNode).node = none →
        (nodes'.getD n blankNode).node = none) ∧
      (∀ n ∈ dp, ∀ pn, (nodes.getD n blankNode).node = some (Node.parent pn) →
        (nodes'.getD n blankNode).node = some (Node.parent
          { pn with unmerged_leaves := pn.unmerged_leaves ++ [index] })) := by
  intro dp
  induction dp with
  | nil =>
    intro nodes nodes' _ h
    rw [addUnmerged] at h
    injection h with h
    rw [h]
    exact ⟨rfl, fun _ _ => rfl, by simp, by simp⟩
  | cons n rest ih =>
    intro nodes nodes' hnd h
    have hnd2 : rest.Nodup := (List.nodup_cons.mp hnd).2
    have hnmem : n ∉ rest := (List.nodup_cons.mp hnd).1
    rw [addUnmerged] at h
    by_cases hin : n < nodes.length
    · rw [if_pos hin] at h
      cases hv : (nodes.getD n blankNode).node with
      | none =>
        rw [hv] at h
        obtain ⟨p1, p2, p3, p4⟩ := ih nodes nodes' hnd2 h
        refine ⟨p1, ?_, ?_, ?_⟩
        · intro m hm
          exact p2 m (by simp at hm; exact hm.2)
        · intro n' hn' hvn
          rcases List.mem_cons.mp hn' with he | he
          · rw [he]
            rw [he] at hvn
            rw [p2 n hnmem]
            exact hvn
          · exact p3 n' he hvn
        · intro n' hn' pn hvn
          rcases List.mem_cons.mp hn' with he | he
          · rw [he] at hvn
            rw [hv] at hvn
            simp at hvn
          · exact p4 n' he pn hvn
      | some nd =>
        cases nd with
        | leaf kp =>
          rw [hv] at h
          simp at h
        | parent pn =>
          rw [hv] at h
          obtain ⟨p1, p2, p3, p4⟩ := ih _ nodes' hnd2 h
          have hset : ∀ m, m ≠ n →
              ((nodes.set n ⟨some (Node.parent
                { pn with unmerged_leaves := pn.unmerged_leaves ++ [index] })⟩).getD
                m blankNode) = nodes.getD m blankNode := by
            intro m hm
            exact getD_set_ne nodes n m _ blankNode hm
          have hsetn : ((nodes.set n ⟨some (Node.parent
              { pn with unmerged_leaves := pn.unmerged_leaves ++ [index] })⟩).getD
              n blankNode) = ⟨some (Node.parent
              { pn with unmerged_leaves := pn.unmerged_leaves ++ [index] })⟩ :=
            getD_set_self nodes n _ blankNode hin
          refine ⟨by rw [p1]; simp, ?_, ?_, ?_⟩
          · intro m hm
            simp at hm
            rw [p2 m hm.2, hset m hm.1]
          · intro n' hn' hvn
            rcases List.mem_cons.mp hn' with he | he
            · rw [he] at hvn
              rw [hv] at hvn
              simp at hvn
            · have hne : n' ≠ n := fun hc => hnmem (hc ▸ he)
              exact p3 n' he (by rw [hset n' hne]; exact hvn)
          · intro n' hn' pn' hvn
            rcases List.mem_cons.mp hn' with he | he
            · rw [he]
              rw [he] at hvn
              rw [hv] at hvn
              injection hvn with hvn
              injection hvn with hvn
              rw [← hvn]
              rw [p2 n hnmem, hsetn]
            · have hne : n' ≠ n := fun hc => hnmem (hc ▸ he)
              exact p4 n' he pn' (by rw [hset n' hne]; exact hvn)
    · rw [if_neg hin] at h
      simp at h

theorem addUnmerged_ok (index : Nat) :
    ∀ (dp : List Nat) (nodes : List OptionalNode),
      (∀ n ∈ dp, n < nodes.length ∧
        ((nodes.getD n blankNode).node = none ∨
         ∃ pn, (nodes.getD n blankNode).node = some (Node.parent pn))) →
      ∃ nodes', addUnmerged index dp nodes = .ok nodes' := by
  intro dp
  induction dp with
  | nil => intro nodes _; exact ⟨nodes, rfl⟩
  | cons n rest ih =>
    intro nodes h
    obtain ⟨hin, hvar⟩ := h n (by simp)
    rw [addUnmerged, if_pos hin]
    rcases hvar with hn | ⟨pn, hn⟩
    · rw [hn]
      exact ih nodes (fun m hm => h m (by simp [hm]))
    · rw [hn]
      apply ih
      intro m hm
      obtain ⟨hm1, hm2⟩ := h m (by simp [hm])
      refine ⟨by simpa using hm1, ?_⟩
      by_cases he : m = n
      · right
        rw [he, getD_set_self nodes n _ blankNode hin]
        exact ⟨_, rfl⟩
      · rw [getD_set_ne nodes n m _ blankNode he]
        exact hm2

end TreeKEMPublicKey

/-- Slot/variant agreement: leaves live at even indices, parents at odd
ones. -/
def slotOK (j : Nat) (n : Option Node) : Prop :=
  match n with
  | some (Node.leaf _) => j % 2 = 0
  | some (Node.parent _) => j % 2 = 1
  | none => True

instance instSlotOKDec (j : Nat) (n : Option Node) : Decidable (slotOK j n) :=
  match n with
  | none => isTrue trivial
  | some (Node.leaf _) => inferInstanceAs (Decidable (j % 2 = 0))
  | some (Node.parent _) => inferInstanceAs (Decidable (j % 2 = 1))

/-- The C++ class invariants assumed of a well-formed tree: the node array
is empty or of odd length, and each slot's variant matches its
position. -/
def WFtree (t : TreeKEMPublicKey) : Prop :=
  (t.nodes.length = 0 ∨ t.nodes.length % 2 = 1) ∧
  ∀ j, j < t.nodes.length → slotOK j (t.nodes.getD j blankNode).node

instance instWFtreeDec (t : TreeKEMPublicKey) : Decidable (WFtree t) :=
  inferInstanceAs (Decidable (_ ∧ _))

theorem nodeWidth_leafWidth_odd {L : Nat} (h : L % 2 = 1) :
    nodeWidth (leafWidth L) = L := by
  unfold nodeWidth leafWidth
  rw [if_neg (show ¬(L = 0) by omega)]
  rw [if_neg (show ¬(L / 2 + 1 = 0) by omega)]
  omega

namespace TreeKEMPublicKey

/-- The shared core of `add_leaf` after the target slot is known: setting
the leaf and updating the unmerged lists succeeds and has the described
slot-wise effect. -/
theorem add_leaf_core (t : TreeKEMPublicKey) (kp : KeyPackage)
    (hwf2 : ∀ j, j < t.nodes.length → slotOK j (t.nodes.getD j blankNode).node)
    (i : Nat) (ns1 : List OptionalNode)
    (hns1 : ∀ m, ns1.getD m blankNode = t.nodes.getD m blankNode)
    (hlen1odd : ns1.length % 2 = 1) (hni : 2 * i < ns1.length) :
    ∃ ns', addUnmerged i (dirpath (2 * i) (nodeWidth (leafWidth ns1.length)))
        (ns1.set (2 * i) ⟨some (Node.leaf kp)⟩) = .ok ns' ∧
      ns'.length = ns1.length ∧
      ns'.getD (2 * i) blankNode = ⟨some (Node.leaf kp)⟩ ∧
      (∀ n ∈ dirpath (2 * i) (nodeWidth (leafWidth ns1.length)),
        ((t.nodes.getD n blankNode).node = none →
          (ns'.getD n blankNode).node = none) ∧
        (∀ pn, (t.nodes.getD n blankNode).node = some (Node.parent pn) →
          (ns'.getD n blankNode).node = some (Node.parent
            { pn with unmerged_leaves := pn.unmerged_leaves ++ [i] }))) ∧
      (∀ m, m ≠ 2 * i → m ∉ dirpath (2 * i) (nodeWidth (leafWidth ns1.length)) →
        ns'.getD m blankNode = t.nodes.getD m blankNode) := by
  have hW : nodeWidth (leafWidth ns1.length) = ns1.length :=
    nodeWidth_leafWidth_odd hlen1odd
  set W := nodeWidth (leafWidth ns1.length) with hWdef
  set ns2 := ns1.set (2 * i) (⟨some (Node.leaf kp)⟩ : OptionalNode) with hns2
  have hlen2 : ns2.length = ns1.length := by
    rw [hns2, List.length_set]
  set dp := dirpath (2 * i) W with hdp
  have hdp_lt : ∀ n ∈ dp, n < ns1.length := by
    intro n hn
    have := @dirpath_mem_lt (2 * i) W (by omega) (by omega) n hn
    omega
  have hdp_odd : ∀ n ∈ dp, n % 2 = 1 := by
    intro n hn
    exact level_pos_odd (dirpath_mem_level_pos n hn)
  have hns2eq : ∀ n, n % 2 = 1 → ns2.getD n blankNode = t.nodes.getD n blankNode := by
    intro n hodd
    rw [hns2, getD_set_ne ns1 (2 * i) n _ blankNode (by omega)]
    exact hns1 n
  have hvariants : ∀ n ∈ dp, n < ns2.length ∧
      ((ns2.getD n blankNode).node = none ∨
       ∃ pn, (ns2.getD n blankNode).node = some (Node.parent pn)) := by
    intro n hn
    have hlt := hdp_lt n hn
    have hodd := hdp_odd n hn
    refine ⟨by omega, ?_⟩
    rw [hns2eq n hodd]
    cases hv : (t.nodes.getD n blankNode).node with
    | none => left; rfl
    | some nd =>
      have hlen : n < t.nodes.length := by
        by_contra hcon
        push_neg at hcon
        rw [getD_out t.nodes n blankNode hcon] at hv
        simp [blankNode] at hv
      have hslot := hwf2 n hlen
      rw [hv] at hslot
      cases nd with
      | leaf kp2 =>
        unfold slotOK at hslot
        omega
      | parent pn => right; exact ⟨pn, rfl⟩
  obtain ⟨ns', hok⟩ := addUnmerged_ok i dp ns2 hvariants
  obtain ⟨q1, q2, q3, q4⟩ := addUnmerged_spec i dp ns2 ns' (dirpath_nodup (2 * i) W) hok
  refine ⟨ns', hok, by omega, ?_, ?_, ?_⟩
  · have h2i : (2 : Nat) * i ∉ dp := by
      intro hc
      have := hdp_odd (2 * i) hc
      omega
    rw [q2 (2 * i) h2i, hns2, getD_set_self ns1 (2 * i) _ blankNode hni]
  · intro n hn
    have hodd := hdp_odd n hn
    constructor
    · intro hv
      exact q3 n hn (by rw [hns2eq n hodd]; exact hv)
    · intro pn hv
      exact q4 n hn pn (by rw [hns2eq n hodd]; exact hv)
  · intro m hm1 hm2
    rw [q2 m hm2, hns2, getD_set_ne ns1 (2 * i) m _ blankNode hm1]
    exact hns1 m

end TreeKEMPublicKey

/-- C10: for every `TreeKEMPrivateKey` produced by `create` or `joiner`
and evolved by `implant`, `private_key`, `set_leaf_secret`, `decap` and
`truncate`, every `NodeIndex` present in `private_key_cache` is also
present in `path_secrets`; consequently `decap`'s search over
`path_secrets` alone finds every resolution node for which a private key
is obtainable. -/
theorem claim_C10 (k : TreeKEMPrivateKey) (h : ReachablePriv k) :
    (∀ n, (alookup k.private_key_cache n).isSome →
      (alookup k.path_secrets n).isSome) ∧
    (∀ n, (k.private_key n).isSome → (alookup k.path_secrets n).isSome) := by
  have hs := TreeKEMPrivateKey.cacheSub_reachable h
  exact ⟨hs, fun n hn => TreeKEMPrivateKey.private_key_some_secret hs hn⟩

theorem claim_C10_witness :
    (alookup (TreeKEMPrivateKey.create 1 2 0 [5]).path_secrets 1).isSome := by
  exact (claim_C10 _ (ReachablePriv.create 1 2 0 [5])).2 1 (by decide)

/-- C1 (amended): `decap` leaves the private key unmodified whenever it
throws; `merge`, by contrast, is not atomic: on the direct-path size
mismatch it throws only after overwriting the sender's leaf with
`path.leaf_key_package`, leaving the rest of the tree unmodified. -/
theorem claim_C1_amended :
    (∀ (k : TreeKEMPrivateKey) (frm : Nat) (pub : TreeKEMPublicKey) (c : Bytes)
        (path : DirectPath) (e : Err),
      (k.decap frm pub c path).1 = some e → (k.decap frm pub c path).2 = k) ∧
    (∀ (t : TreeKEMPublicKey) (frm : Nat) (path : DirectPath),
      2 * frm < t.nodes.length →
      (dirpath (2 * frm) (nodeWidth (leafWidth t.nodes.length))).length ≠
        path.nodes.length →
      t.merge frm path = (some (Err.protocol "Malformed direct path"),
        { t with
          nodes := t.nodes.set (2 * frm) ⟨some (Node.leaf path.leaf_key_package)⟩ })) :=
  ⟨fun k frm pub c path e h =>
    (TreeKEMPrivateKey.decap_error_cases k frm pub c path e h).1,
   fun _ _ _ hin hmis => merge_mismatch hin hmis⟩

theorem claim_C1_witness :
    (kEmpty.decap 0 tEmpty [] pathEmpty).2 = kEmpty ∧
    tOne.merge 0 badPath = (some (Err.protocol "Malformed direct path"),
      { tOne with nodes := tOne.nodes.set 0 ⟨some (Node.leaf badPath.leaf_key_package)⟩ }) :=
  ⟨claim_C1_amended.1 kEmpty 0 tEmpty [] pathEmpty
      (Err.protocol "No overlap in path") (by decide),
   claim_C1_amended.2 tOne 0 badPath (by decide) (by decide)⟩

/-- C1 as stated is false: a `merge` that throws the direct-path size
mismatch has already modified the tree. -/
theorem claim_C1_counterexample :
    (tOne.merge 0 badPath).1 = some (Err.protocol "Malformed direct path") ∧
    (tOne.merge 0 badPath).2 ≠ tOne := by
  constructor
  · decide
  · decide

/-- C2 (amended): right-truncation holds immediately after `truncate`
(the array is empty or its last entry is non-blank); it does not hold
after every mutation, and lengths other than `0` and `2·leaf_count − 1`
are reachable. -/
theorem claim_C2_amended (t : TreeKEMPublicKey) :
    t.truncate.nodes = [] ∨
    ∃ ln, t.truncate.nodes.getLast? = some ln ∧ ln.node.isSome :=
  truncate_last t

/-- C2 as stated is false: `blank_path` can leave the last slot blank,
and a `truncate` stopping at a non-blank parent leaves an even number of
slots. -/
theorem claim_C2_counterexample :
    ReachablePub tBlankLast ∧ tBlankLast.nodes ≠ [] ∧
    tBlankLast.nodes.getLast? = some ⟨none⟩ ∧
    ReachablePub tSix ∧ tSix.nodes.length = 6 := by
  have h0 : ReachablePub (⟨1, []⟩ : TreeKEMPublicKey) := .empty 1
  have h1 : ReachablePub (⟨1, [⟨some (Node.leaf kpA)⟩]⟩ : TreeKEMPublicKey) :=
    .add (i := 0) kpA h0 (by decide)
  have h2 : ReachablePub (⟨1, [⟨some (Node.leaf kpA)⟩, ⟨none⟩,
      ⟨some (Node.leaf kpB)⟩]⟩ : TreeKEMPublicKey) :=
    .add (i := 1) kpB h1 (by decide)
  have hBlank : ReachablePub tBlankLast := .blank 1 h2 (by decide)
  have h3 : ReachablePub (⟨1, [⟨some (Node.leaf kpA)⟩, ⟨none⟩,
      ⟨some (Node.leaf kpB)⟩, ⟨none⟩, ⟨some (Node.leaf kpC)⟩]⟩ : TreeKEMPublicKey) :=
    .add (i := 2) kpC h2 (by decide)
  have h4 : ReachablePub (⟨1, [⟨some (Node.leaf kpA)⟩, ⟨none⟩,
      ⟨some (Node.leaf kpB)⟩, ⟨none⟩, ⟨some (Node.leaf kpC)⟩, ⟨none⟩,
      ⟨some (Node.leaf kpD)⟩]⟩ : TreeKEMPublicKey) :=
    .add (i := 3) kpD h3 (by decide)
  have h5 : ReachablePub (⟨1, [⟨some (Node.leaf kpA)⟩, ⟨none⟩,
      ⟨some (Node.leaf kpB)⟩, ⟨none⟩, ⟨some (Node.leaf kpC)⟩, ⟨none⟩,
      ⟨none⟩]⟩ : TreeKEMPublicKey) :=
    .blank 3 h4 (by decide)
  have h6 : ReachablePub (⟨1, [⟨some (Node.leaf kpA)⟩, ⟨none⟩,
      ⟨some (Node.leaf kpB)⟩, ⟨some (Node.parent ⟨⟨[2]⟩, [], []⟩)⟩,
      ⟨some (Node.leaf kpB)⟩, ⟨some (Node.parent ⟨⟨[1]⟩, [], []⟩)⟩,
      ⟨none⟩]⟩ : TreeKEMPublicKey) :=
    .merge 2 pathTwo h5 (by decide)
  have hSix : ReachablePub tSix := by
    have := ReachablePub.truncate h6
    have heq : (⟨1, [⟨some (Node.leaf kpA)⟩, ⟨none⟩,
        ⟨some (Node.leaf kpB)⟩, ⟨some (Node.parent ⟨⟨[2]⟩, [], []⟩)⟩,
        ⟨some (Node.leaf kpB)⟩, ⟨some (Node.parent ⟨⟨[1]⟩, [], []⟩)⟩,
        ⟨none⟩]⟩ : TreeKEMPublicKey).truncate = tSix := by decide
    rw [heq] at this
    exact this
  exact ⟨hBlank, by decide, by decide, hSix, by decide⟩

/-- C4: `decap` throws `ProtocolError` on the direct-path size mismatch,
on the resolution size mismatch at the overlap index, and when no node of
that resolution has a key in `path_secrets` or the cache; and every error
`decap` itself raises is a `ProtocolError`. -/
theorem claim_C4 :
    (∀ (k : TreeKEMPrivateKey) (frm : Nat) (pub : TreeKEMPublicKey) (c : Bytes)
        (path : DirectPath),
      (dirpath (2 * frm) pub.nodeCount).length ≠ path.nodes.length →
      k.decap frm pub c path = (some (Err.protocol "Malformed direct path"), k)) ∧
    (∀ (k : TreeKEMPrivateKey) (frm : Nat) (pub : TreeKEMPublicKey) (c : Bytes)
        (path : DirectPath) (dpi ov cp : Nat),
      (dirpath (2 * frm) pub.nodeCount).length = path.nodes.length →
      TreeKEMPrivateKey.findOverlap (2 * k.index) pub.nodeCount frm
        (dirpath (2 * frm) pub.nodeCount) = some (dpi, ov, cp) →
      (pub.resolve cp).length ≠
        (path.nodes.getD dpi TreeKEMPrivateKey.defaultRatchetNode).node_secrets.length →
      k.decap frm pub c path =
        (some (Err.protocol "Malformed direct path node"), k)) ∧
    (∀ (k : TreeKEMPrivateKey) (frm : Nat) (pub : TreeKEMPublicKey) (c : Bytes)
        (path : DirectPath) (dpi ov cp : Nat),
      (dirpath (2 * frm) pub.nodeCount).length = path.nodes.length →
      TreeKEMPrivateKey.findOverlap (2 * k.index) pub.nodeCount frm
        (dirpath (2 * frm) pub.nodeCount) = some (dpi, ov, cp) →
      (pub.resolve cp).length =
        (path.nodes.getD dpi TreeKEMPrivateKey.defaultRatchetNode).node_secrets.length →
      (∀ r ∈ pub.resolve cp, alookup k.path_secrets r = none ∧
        alookup k.private_key_cache r = none) →
      k.decap frm pub c path =
        (some (Err.protocol "No private key to decrypt path secret"), k)) ∧
    (∀ (k : TreeKEMPrivateKey) (frm : Nat) (pub : TreeKEMPublicKey) (c : Bytes)
        (path : DirectPath) (e : Err),
      (k.decap frm pub c path).1 = some e → ∃ msg, e = Err.protocol msg) := by
  refine ⟨?_, ?_, ?_, ?_⟩
  · intro k frm pub c path h
    exact TreeKEMPrivateKey.decap_eq_of_mismatch h
  · intro k frm pub c path dpi ov cp h1 h2 h3
    exact TreeKEMPrivateKey.decap_eq_of_res_mismatch h1 h2 h3
  · intro k frm pub c path dpi ov cp h1 h2 h3 h4
    exact TreeKEMPrivateKey.decap_eq_of_no_key h1 h2 h3
      (TreeKEMPrivateKey.findRes_none (pub.resolve cp) 0 (fun r hr => (h4 r hr).1))
  · intro k frm pub c path e h
    exact (TreeKEMPrivateKey.decap_error_cases k frm pub c path e h).2

def tThree : TreeKEMPublicKey :=
  ⟨1, [⟨some (Node.leaf kpA)⟩, ⟨none⟩, ⟨some (Node.leaf kpB)⟩]⟩

def pathRes : DirectPath := ⟨kpB, [⟨⟨[3]⟩, [⟨[], []⟩]⟩]⟩

theorem claim_C4_witness :
    kEmpty.decap 0 tEmpty [] badPath =
      (some (Err.protocol "Malformed direct path"), kEmpty) ∧
    kEmpty.decap 1 tThree [] pathRes =
      (some (Err.protocol "No private key to decrypt path secret"), kEmpty) ∧
    (∃ msg, Err.protocol "No overlap in path" = Err.protocol msg) := by
  refine ⟨?_, ?_, ?_⟩
  · exact claim_C4.1 kEmpty 0 tEmpty [] badPath (by decide)
  · exact claim_C4.2.2.1 kEmpty 1 tThree [] pathRes 0 1 0 (by decide) (by decide)
      (by decide) (by decide)
  · exact claim_C4.2.2.2 kEmpty 0 tEmpty [] pathEmpty
      (Err.protocol "No overlap in path") (by decide)

/-- C8: a `Welcome` built from a cipher suite, epoch secret and
`GroupInfo` decrypts back to that `GroupInfo` under the same epoch secret,
assuming the AEAD contract and the canonical-encoding round trip of
`GroupInfo`; both sides derive the key and nonce via
`HKDF-Expand-Label` with labels "group info", then "key" and "nonce"
(`groupInfoKeyNonce`). -/
theorem claim_C8 (marshalGI : GroupInfo → Bytes)
    (unmarshalGI : Bytes → Option GroupInfo) (suite : CipherSuite)
    (epoch_secret : Bytes) (gi : GroupInfo)
    (hround : unmarshalGI (marshalGI gi) = some gi) :
    welcomeDecrypt unmarshalGI (welcomeCreate marshalGI suite epoch_secret gi)
      epoch_secret = some gi := by
  unfold welcomeDecrypt welcomeCreate aeadOpen aeadSeal
  simp [hround]

def giTrivial : GroupInfo := ⟨[], 0, ⟨1, []⟩, [], [], [], 0, []⟩

theorem claim_C8_witness :
    welcomeDecrypt (fun _ => some giTrivial)
      (welcomeCreate (fun _ => []) 1 [9] giTrivial) [9] = some giTrivial :=
  claim_C8 (fun _ => []) (fun _ => some giTrivial) 1 [9] giTrivial rfl

/-- C5: for every tree and in-range node index, `resolve` computes the
spec's recursive resolution: `[n]` for a non-blank leaf, `[n]` followed by
the unmerged leaves in insertion order for a non-blank parent, `[]` for a
blank leaf, and the concatenation of the children's resolutions for a
blank parent. -/
theorem claim_C5 (t : TreeKEMPublicKey) (n : Nat) (h : n < t.nodes.length) :
    t.resolve n = t.resolveSpec n := by
  unfold TreeKEMPublicKey.resolve TreeKEMPublicKey.resolveSpec
  exact TreeKEMPublicKey.resolveAux_eq_specAux t _ n

theorem claim_C5_witness : tThree.resolve 1 = tThree.resolveSpec 1 :=
  claim_C5 tThree 1 (by decide)

/-- C6: on a non-empty tree with at least one non-blank leaf,
`resolve(root)` is non-empty. -/
theorem claim_C6 (t : TreeKEMPublicKey) (hne : t.nodes ≠ [])
    (i : Nat) (hi : 2 * i < t.nodes.length) (hnb : (t.nodeOpt (2 * i)).isSome) :
    t.resolve (root t.nodeCount) ≠ [] := by
  have hlen1 : 1 ≤ t.nodes.length := List.length_pos.mpr hne
  have hnc : t.nodes.length ≤ t.nodeCount ∧ 1 ≤ t.nodeCount := by
    have h1 : t.leafCount = t.nodes.length / 2 + 1 := by
      unfold TreeKEMPublicKey.leafCount leafWidth
      rw [if_neg (by omega)]
    have h2 : t.nodeCount = 2 * (t.nodes.length / 2 + 1) - 1 := by
      unfold TreeKEMPublicKey.nodeCount nodeWidth
      rw [h1]
      rw [if_neg (by omega)]
    omega
  have hb := log2t_bounds hnc.2
  have hroot : root t.nodeCount = 2 ^ log2t t.nodeCount - 1 := rfl
  have hrootlev : level (root t.nodeCount) = log2t t.nodeCount :=
    level_root t.nodeCount
  have hp1 : (1 : Nat) ≤ 2 ^ log2t t.nodeCount := Nat.one_le_two_pow
  have e1 : (2 : Nat) ^ (log2t t.nodeCount + 1) = 2 * 2 ^ log2t t.nodeCount := by
    ring
  apply TreeKEMPublicKey.resolve_ne_nil_span t (log2t t.nodeCount)
    (root t.nodeCount) (2 * i)
  · rw [hrootlev]
  · exact Nat.mul_mod_right 2 i
  · exact lt_of_lt_of_le hi hnc.1
  · exact hnb
  · rw [hrootlev, hroot]
    omega
  · rw [hrootlev, hroot]
    omega

theorem claim_C6_witness : tThree.resolve (root tThree.nodeCount) ≠ [] :=
  claim_C6 tThree (by decide) 0 (by decide) (by decide)

/-- C7: `add_leaf` returns the smallest blank leaf index or appends a
fresh leaf at the right; when appending, the array is resized to
`2·new_leaf_count − 1` with the intermediate new slots blank; and the
returned index is appended to the `unmerged_leaves` of exactly the
non-blank nodes on the new leaf's direct path (blank path nodes stay
blank, slots off the path are untouched). -/
theorem claim_C7 (t : TreeKEMPublicKey) (kp : KeyPackage) (hwf : WFtree t) :
    ∃ t' i, t.add_leaf kp = .ok (t', i) ∧
      (∀ j, j < i → (t.nodeOpt (2 * j)).isSome) ∧
      (i < t.leafCount → t.nodeOpt (2 * i) = none) ∧
      i ≤ t.leafCount ∧
      (t.leafCount ≤ i → t'.nodes.length = 2 * (i + 1) - 1 ∧
        ∀ m, t.nodes.length ≤ m → m < 2 * i → t'.nodeOpt m = none) ∧
      t'.nodeOpt (2 * i) = some (Node.leaf kp) ∧
      (∀ n ∈ dirpath (2 * i) (nodeWidth (leafWidth t'.nodes.length)),
        (t.nodeOpt n = none → t'.nodeOpt n = none) ∧
        (∀ pn, t.nodeOpt n = some (Node.parent pn) →
          t'.nodeOpt n = some (Node.parent
            { pn with unmerged_leaves := pn.unmerged_leaves ++ [i] }))) ∧
      (∀ m, m ≠ 2 * i →
        m ∉ dirpath (2 * i) (nodeWidth (leafWidth t'.nodes.length)) →
        t'.nodeOpt m = t.nodeOpt m) := by
  obtain ⟨hwf1, hwf2⟩ := hwf
  obtain ⟨i, hidef⟩ : ∃ i,
      TreeKEMPublicKey.findBlankAux t.nodes t.leafCount t.leafCount 0 = i :=
    ⟨_, rfl⟩
  obtain ⟨hp1, hp2, hp3, hp4⟩ :=
    TreeKEMPublicKey.findBlankAux_spec t.nodes t.leafCount t.leafCount 0
      (by omega) (by omega)
  rw [hidef] at hp2 hp3 hp4
  have hsize : t.leafCount = leafWidth t.nodes.length := rfl
  by_cases hext : t.leafCount ≤ i
  · -- append a fresh leaf at the right
    have hlen2i : t.nodes.length ≤ 2 * i := by
      rcases hwf1 with h0 | hodd
      · omega
      · have hsz : t.leafCount = t.nodes.length / 2 + 1 := by
          rw [hsize]
          unfold leafWidth
          rw [if_neg (by omega)]
        omega
    set ns1 := t.nodes ++ List.replicate (2 * i + 1 - t.nodes.length) blankNode
      with hns1
    have hlen1 : ns1.length = 2 * i + 1 := by
      rw [hns1, List.length_append, List.length_replicate]
      omega
    have hns1eq : ∀ m, ns1.getD m blankNode = t.nodes.getD m blankNode := by
      intro m
      by_cases hm : m < t.nodes.length
      · rw [hns1]
        exact getD_append_left _ _ m _ hm
      · push_neg at hm
        rw [hns1, getD_append_replicate t.nodes _ m blankNode hm,
          getD_out t.nodes m blankNode hm]
    obtain ⟨ns2, hok, q4, q1, q2, q3⟩ :=
      TreeKEMPublicKey.add_leaf_core t kp hwf2 i ns1 hns1eq (by omega) (by omega)
    refine ⟨⟨t.suite, ns2⟩, i, ?_, ?_, ?_, hp2, ?_, ?_, ?_, ?_⟩
    · unfold TreeKEMPublicKey.add_leaf
      dsimp only
      rw [hidef, if_pos hext, ← hns1,
        if_pos (show 2 * i < ns1.length by omega),
        show (ns1.set (2 * i) (⟨some (Node.leaf kp)⟩ : OptionalNode)).length =
          ns1.length by simp,
        hok]
    · intro j hj
      exact hp3 j (by omega) hj
    · intro hcon
      omega
    · intro _
      refine ⟨by dsimp only; omega, ?_⟩
      intro m hm1 hm2
      by_cases hmem : m ∈ dirpath (2 * i) (nodeWidth (leafWidth ns1.length))
      · exact (q2 m hmem).1 (by
          show (t.nodes.getD m blankNode).node = none
          rw [getD_out t.nodes m blankNode hm1]
          rfl)
      · show (ns2.getD m blankNode).node = none
        rw [q3 m (by omega) hmem, getD_out t.nodes m blankNode hm1]
        rfl
    · show (ns2.getD (2 * i) blankNode).node = some (Node.leaf kp)
      rw [q1]
    · intro n hn
      dsimp only at hn
      rw [q4] at hn
      exact q2 n hn
    · intro m hm1 hm2
      dsimp only at hm2
      rw [q4] at hm2
      show (ns2.getD m blankNode).node = (t.nodes.getD m blankNode).node
      rw [q3 m hm1 hm2]
  · -- fill the leftmost blank leaf
    have hilt : i < t.leafCount := by omega
    have hlen0 : t.nodes.length ≠ 0 := by
      intro hc
      rw [hsize] at hilt
      unfold leafWidth at hilt
      rw [if_pos hc] at hilt
      omega
    have hodd : t.nodes.length % 2 = 1 := by
      rcases hwf1 with h | h
      · omega
      · exact h
    have hsz : t.leafCount = t.nodes.length / 2 + 1 := by
      rw [hsize]
      unfold leafWidth
      rw [if_neg hlen0]
    have hni : 2 * i < t.nodes.length := by omega
    obtain ⟨ns2, hok, q4, q1, q2, q3⟩ :=
      TreeKEMPublicKey.add_leaf_core t kp hwf2 i t.nodes (fun _ => rfl) hodd hni
    refine ⟨⟨t.suite, ns2⟩, i, ?_, ?_, ?_, hp2, ?_, ?_, ?_, ?_⟩
    · unfold TreeKEMPublicKey.add_leaf
      dsimp only
      rw [hidef, if_neg hext, if_pos (show 2 * i < t.nodes.length from hni),
        show (t.nodes.set (2 * i) (⟨some (Node.leaf kp)⟩ : OptionalNode)).length =
          t.nodes.length by simp,
        hok]
    · intro j hj
      exact hp3 j (by omega) hj
    · intro _
      have h4 := hp4 hilt
      show (t.nodes.getD (2 * i) blankNode).node = none
      cases hv : (t.nodes.getD (2 * i) blankNode).node with
      | none => rfl
      | some nd =>
        rw [hv] at h4
        simp at h4
    · intro hcon
      exact absurd hcon hext
    · show (ns2.getD (2 * i) blankNode).node = some (Node.leaf kp)
      rw [q1]
    · intro n hn
      dsimp only at hn
      rw [q4] at hn
      exact q2 n hn
    · intro m hm1 hm2
      dsimp only at hm2
      rw [q4] at hm2
      show (ns2.getD m blankNode).node = (t.nodes.getD m blankNode).node
      rw [q3 m hm1 hm2]

theorem claim_C7_witness :
    ∃ t' i, tBlankLast.add_leaf kpB = .ok (t', i) ∧
      (∀ j, j < i → (tBlankLast.nodeOpt (2 * j)).isSome) ∧
      (i < tBlankLast.leafCount → tBlankLast.nodeOpt (2 * i) = none) ∧
      i ≤ tBlankLast.leafCount ∧
      (tBlankLast.leafCount ≤ i → t'.nodes.length = 2 * (i + 1) - 1 ∧
        ∀ m, tBlankLast.nodes.length ≤ m → m < 2 * i → t'.nodeOpt m = none) ∧
      t'.nodeOpt (2 * i) = some (Node.leaf kpB) ∧
      (∀ n ∈ dirpath (2 * i) (nodeWidth (leafWidth t'.nodes.length)),
        (tBlankLast.nodeOpt n = none → t'.nodeOpt n = none) ∧
        (∀ pn, tBlankLast.nodeOpt n = some (Node.parent pn) →
          t'.nodeOpt n = some (Node.parent
            { pn with unmerged_leaves := pn.unmerged_leaves ++ [i] }))) ∧
      (∀ m, m ≠ 2 * i →
        m ∉ dirpath (2 * i) (nodeWidth (leafWidth t'.nodes.length)) →
        t'.nodeOpt m = tBlankLast.nodeOpt m) :=
  claim_C7 tBlankLast kpB (by decide)

/-- The memoization discipline of the private-key cache: every cached key
was derived from the stored path secret of the same node. -/
def derivedCache (k : TreeKEMPrivateKey) : Prop :=
  ∀ n pk, alookup k.private_key_cache n = some pk →
    ∃ s, alookup k.path_secrets n = some s ∧ pk = hpkeDerive k.suite s

theorem derivedCache_of_nil (k : TreeKEMPrivateKey)
    (h : k.private_key_cache = []) : derivedCache k := by
  intro n pk hpk
  rw [h] at hpk
  exact Option.noConfusion hpk

theorem implantGo_suite (suite : CipherSuite) :
    ∀ (L : List Nat) (s : Bytes) (k : TreeKEMPrivateKey),
      (TreeKEMPrivateKey.implantGo suite L s k).suite = k.suite := by
  intro L
  induction L with
  | nil => intro s k; rfl
  | cons n rest ih =>
    intro s k
    rw [TreeKEMPrivateKey.implantGo]
    exact ih _ _

theorem implantGo_cache_nil (suite : CipherSuite) :
    ∀ (L : List Nat) (s : Bytes) (k : TreeKEMPrivateKey),
      k.private_key_cache = [] →
      (TreeKEMPrivateKey.implantGo suite L s k).private_key_cache = [] := by
  intro L
  induction L with
  | nil => intro s k h; exact h
  | cons n rest ih =>
    intro s k h
    rw [TreeKEMPrivateKey.implantGo]
    refine ih _ _ ?_
    show aerase k.private_key_cache n = []
    rw [h]
    rfl

theorem mem_ainsert {α : Type} :
    ∀ (l : List (Nat × α)) (n : Nat) (v : α) (e : Nat × α),
      e ∈ ainsert l n v → e.1 = n ∨ e ∈ l := by
  intro l
  induction l with
  | nil =>
    intro n v e he
    simp [ainsert] at he
    left
    rw [he]
  | cons hd tl ih =>
    intro n v e he
    rw [ainsert] at he
    by_cases h : n = hd.1
    · rw [if_pos h] at he
      rcases List.mem_cons.mp he with h1 | h1
      · left
        rw [h1, h]
      · right
        exact List.mem_cons_of_mem _ h1
    · rw [if_neg h] at he
      rcases List.mem_cons.mp he with h1 | h1
      · right
        rw [h1]
        exact List.mem_cons_self _ _
      · rcases ih n v e h1 with h2 | h2
        · left
          exact h2
        · right
          exact List.mem_cons_of_mem _ h2

theorem implantGo_mem (suite : CipherSuite) :
    ∀ (L : List Nat) (s : Bytes) (k : TreeKEMPrivateKey) (e : Nat × Bytes),
      e ∈ (TreeKEMPrivateKey.implantGo suite L s k).path_secrets →
      e.1 ∈ L ∨ e ∈ k.path_secrets := by
  intro L
  induction L with
  | nil =>
    intro s k e he
    right
    exact he
  | cons n rest ih =>
    intro s k e he
    rw [TreeKEMPrivateKey.implantGo] at he
    rcases ih _ _ _ he with h1 | h1
    · left
      exact List.mem_cons_of_mem _ h1
    · rcases mem_ainsert k.path_secrets n s e h1 with h2 | h2
      · left
        rw [h2]
        exact List.mem_cons_self _ _
      · right
        exact h2

theorem implantGo_lookup_off (suite : CipherSuite) :
    ∀ (L : List Nat) (s : Bytes) (k : TreeKEMPrivateKey) (n : Nat),
      n ∉ L →
      alookup (TreeKEMPrivateKey.implantGo suite L s k).path_secrets n =
        alookup k.path_secrets n := by
  intro L
  induction L with
  | nil => intro s k n _; rfl
  | cons m rest ih =>
    intro s k n hn
    rw [TreeKEMPrivateKey.implantGo]
    rw [ih _ _ _ (fun hc => hn (List.mem_cons_of_mem _ hc))]
    refine alookup_ainsert_ne _ _ _ _ ?_
    intro hc
    refine hn ?_
    rw [hc]
    exact List.mem_cons_self _ _

theorem implantGo_lookup_mem (suite : CipherSuite) :
    ∀ (L : List Nat) (s : Bytes) (k : TreeKEMPrivateKey) (n : Nat),
      n ∈ L →
      ∃ v, alookup (TreeKEMPrivateKey.implantGo suite L s k).path_secrets n =
        some v := by
  intro L
  induction L with
  | nil =>
    intro s k n hn
    exact absurd hn (List.not_mem_nil n)
  | cons m rest ih =>
    intro s k n hn
    rw [TreeKEMPrivateKey.implantGo]
    by_cases hr : n ∈ rest
    · exact ih _ _ _ hr
    · have hnm : n = m := by
        rcases List.mem_cons.mp hn with h | h
        · exact h
        · exact absurd h hr
      refine ⟨s, ?_⟩
      rw [implantGo_lookup_off suite rest _ _ n hr, hnm]
      exact alookup_ainsert_self _ _ _

theorem privkey_of_secret (k : TreeKEMPrivateKey) (n : Nat) (s : Bytes)
    (hd : derivedCache k) (h : alookup k.path_secrets n = some s) :
    k.private_key n = some (hpkeDerive k.suite s) := by
  unfold TreeKEMPrivateKey.private_key
  cases hc : alookup k.private_key_cache n with
  | none =>
    dsimp only
    simp only [h]
  | some pk =>
    dsimp only
    obtain ⟨s2, hs2, hpk⟩ := hd n pk hc
    rw [h] at hs2
    injection hs2 with he
    rw [hpk, ← he]

theorem private_key_mut_of_secret (k : TreeKEMPrivateKey) (n : Nat) (s : Bytes)
    (hd : derivedCache k) (h : alookup k.path_secrets n = some s) :
    k.private_key_mut n =
      (some (hpkeDerive k.suite s),
        { k with private_key_cache :=
            ainsert k.private_key_cache n (hpkeDerive k.suite s) }) := by
  unfold TreeKEMPrivateKey.private_key_mut
  rw [privkey_of_secret k n s hd h]

theorem derivedCache_ainsert (k : TreeKEMPrivateKey) (n : Nat) (s : Bytes)
    (hd : derivedCache k) (h : alookup k.path_secrets n = some s) :
    derivedCache
      { k with private_key_cache :=
          ainsert k.private_key_cache n (hpkeDerive k.suite s) } := by
  intro m pk hm
  dsimp only at hm
  by_cases hmn : m = n
  · subst hmn
    rw [alookup_ainsert_self] at hm
    injection hm with he
    exact ⟨s, h, he.symm⟩
  · rw [alookup_ainsert_ne _ _ _ _ hmn] at hm
    exact hd m pk hm

theorem mem_zip_left {α β : Type} :
    ∀ (l1 : List α) (l2 : List β) (a : α), l1.length = l2.length → a ∈ l1 →
      ∃ b, (a, b) ∈ l1.zip l2 := by
  intro l1
  induction l1 with
  | nil =>
    intro l2 a _ ha
    exact absurd ha (List.not_mem_nil a)
  | cons x xs ih =>
    intro l2 a hlen ha
    cases l2 with
    | nil => simp at hlen
    | cons y ys =>
      rcases List.mem_cons.mp ha with h | h
      · refine ⟨y, ?_⟩
        rw [h]
        exact List.mem_cons_self _ _
      · obtain ⟨b, hb⟩ := ih ys a (by simpa using hlen) h
        exact ⟨b, List.mem_cons_of_mem _ hb⟩

theorem forall2_zip {α β : Type} {R : α → β → Prop} :
    ∀ {l1 : List α} {l2 : List β}, List.Forall₂ R l1 l2 →
      ∀ p ∈ l1.zip l2, R p.1 p.2 := by
  intro l1 l2 h
  induction h with
  | nil =>
    intro p hp
    simp at hp
  | cons hR htail ih =>
    intro p hp
    rcases List.mem_cons.mp hp with h1 | h1
    · rw [h1]
      exact hR
    · exact ih p h1

theorem encapLoop_ok (t : TreeKEMPublicKey) (context : Bytes) :
    ∀ (dp : List Nat) (last : Nat) (priv : TreeKEMPrivateKey)
      (pnodes : List RatchetNode) (priv2 : TreeKEMPrivateKey),
      TreeKEMPublicKey.encapLoop t context dp last priv = .ok (pnodes, priv2) →
      derivedCache priv →
      priv2.path_secrets = priv.path_secrets ∧ priv2.suite = priv.suite ∧
      derivedCache priv2 ∧
      List.Forall₂ (fun n rn => ∃ s, alookup priv.path_secrets n = some s ∧
        rn.public_key = hpkePublic (hpkeDerive priv.suite s)) dp pnodes := by
  intro dp
  induction dp with
  | nil =>
    intro last priv pnodes priv2 h hd
    rw [TreeKEMPublicKey.encapLoop] at h
    injection h with h1
    injection h1 with h2 h3
    subst h2
    subst h3
    exact ⟨rfl, rfl, hd, List.Forall₂.nil⟩
  | cons n rest ih =>
    intro last priv pnodes priv2 h hd
    rw [TreeKEMPublicKey.encapLoop] at h
    cases hsec : alookup priv.path_secrets n with
    | none =>
      rw [hsec] at h
      exact Except.noConfusion h
    | some s =>
      rw [hsec] at h
      dsimp only at h
      rw [private_key_mut_of_secret priv n s hd hsec] at h
      dsimp only at h
      cases hcts : t.encryptRes context s (t.resolve (sibling last t.nodeCount)) with
      | error e =>
        rw [hcts] at h
        exact Except.noConfusion h
      | ok cts =>
        rw [hcts] at h
        dsimp only at h
        cases hrec : TreeKEMPublicKey.encapLoop t context rest n { priv with private_key_cache := ainsert priv.private_key_cache n (hpkeDerive priv.suite s) } with
        | error e =>
          rw [hrec] at h
          exact Except.noConfusion h
        | ok pr =>
          obtain ⟨pn2, p2⟩ := pr
          rw [hrec] at h
          dsimp only at h
          injection h with h1
          injection h1 with h2 h3
          subst h3
          obtain ⟨i1, i2, i3, i4⟩ := ih n _ pn2 p2 hrec
            (derivedCache_ainsert priv n s hd hsec)
          refine ⟨i1, i2, i3, ?_⟩
          rw [← h2]
          exact List.Forall₂.cons ⟨s, hsec, rfl⟩ i4

theorem mergeParents_ok :
    ∀ (dp : List Nat) (rns : List RatchetNode) (ns ns' : List OptionalNode),
      dp.Nodup →
      TreeKEMPublicKey.mergeParents dp rns ns = (none, ns') →
      ns'.length = ns.length ∧
      (∀ m, m ∉ dp → ns'.getD m blankNode = ns.getD m blankNode) ∧
      (∀ p ∈ dp.zip rns,
        ns'.getD p.1 blankNode =
          ⟨some (Node.parent { public_key := p.2.public_key, unmerged_leaves := [], parent_hash := [] })⟩) := by
  intro dp
  induction dp with
  | nil =>
    intro rns ns ns' _ h
    rw [TreeKEMPublicKey.mergeParents] at h
    injection h with h1 h2
    subst h2
    refine ⟨rfl, fun m _ => rfl, ?_⟩
    intro p hp
    simp at hp
  | cons n rest ih =>
    intro rns ns ns' hnd h
    cases rns with
    | nil =>
      rw [TreeKEMPublicKey.mergeParents] at h
      injection h with h1 h2
      subst h2
      refine ⟨rfl, fun m _ => rfl, ?_⟩
      intro p hp
      simp at hp
    | cons rn rrest =>
      rw [TreeKEMPublicKey.mergeParents] at h
      by_cases hlt : n < ns.length
      · rw [if_pos hlt] at h
        obtain ⟨hnr, hndr⟩ := List.nodup_cons.mp hnd
        obtain ⟨l1, l2, l3⟩ := ih rrest _ ns' hndr h
        refine ⟨by rw [l1]; simp, ?_, ?_⟩
        · intro m hm
          have hmn : m ≠ n := fun hc => hm (by rw [hc]; exact List.mem_cons_self _ _)
          have hmr : m ∉ rest := fun hc => hm (List.mem_cons_of_mem _ hc)
          rw [l2 m hmr, getD_set_ne _ _ _ _ _ hmn]
        · intro p hp
          rcases List.mem_cons.mp hp with h1 | h1
          · rw [h1]
            rw [l2 n hnr, getD_set_self _ _ _ _ hlt]
          · exact l3 p h1
      · rw [if_neg hlt] at h
        injection h with h1 h2
        exact Option.noConfusion h1

theorem nodeChain_cons (nc x : Nat) : nodeChain nc x = x :: dirpath x nc := by
  obtain ⟨tl, htl⟩ := chainAux_head nc (pathFuel nc) x
  show chainAux nc (pathFuel nc) x = x :: (chainAux nc (pathFuel nc) x).drop 1
  rw [htl]
  rfl

theorem nodeOpt_lt {t : TreeKEMPublicKey} {n : Nat} {nd : Node}
    (h : t.nodeOpt n = some nd) : n < t.nodes.length := by
  by_contra hc
  push_neg at hc
  rw [TreeKEMPublicKey.nodeOpt, getD_out t.nodes n blankNode hc] at h
  exact Option.noConfusion h

theorem create_suite (suite : CipherSuite) (size index : Nat) (ls : Bytes) :
    (TreeKEMPrivateKey.create suite size index ls).suite = suite := by
  unfold TreeKEMPrivateKey.create TreeKEMPrivateKey.implant
  rw [implantGo_suite]

theorem create_cache (suite : CipherSuite) (size index : Nat) (ls : Bytes) :
    (TreeKEMPrivateKey.create suite size index ls).private_key_cache = [] := by
  unfold TreeKEMPrivateKey.create TreeKEMPrivateKey.implant
  exact implantGo_cache_nil suite _ _ _ rfl

theorem nodeCount_set (t : TreeKEMPublicKey) (n : Nat) (x : OptionalNode) :
    ({ t with nodes := t.nodes.set n x } : TreeKEMPublicKey).nodeCount =
      t.nodeCount := by
  simp [TreeKEMPublicKey.nodeCount, TreeKEMPublicKey.leafCount]

theorem merge_ok (t : TreeKEMPublicKey) (frm : Nat) (path : DirectPath)
    (tm : TreeKEMPublicKey) (h : t.merge frm path = (none, tm)) :
    2 * frm < t.nodes.length ∧ tm.suite = t.suite ∧
    TreeKEMPublicKey.mergeParents (dirpath (2 * frm) t.nodeCount) path.nodes
      (t.nodes.set (2 * frm) ⟨some (Node.leaf path.leaf_key_package)⟩) =
      (none, tm.nodes) := by
  unfold TreeKEMPublicKey.merge at h
  dsimp only at h
  by_cases hlt : 2 * frm < t.nodes.length
  · rw [if_pos hlt] at h
    rw [nodeCount_set t (2 * frm)
      (⟨some (Node.leaf path.leaf_key_package)⟩ : OptionalNode)] at h
    by_cases hdl : (dirpath (2 * frm) t.nodeCount).length = path.nodes.length
    · rw [if_pos hdl] at h
      cases hmp : TreeKEMPublicKey.mergeParents (dirpath (2 * frm) t.nodeCount)
          path.nodes
          (t.nodes.set (2 * frm) ⟨some (Node.leaf path.leaf_key_package)⟩) with
      | mk oe ns =>
        rw [hmp] at h
        cases oe with
        | none =>
          dsimp only at h
          injection h with h1 h2
          refine ⟨hlt, ?_, ?_⟩
          · rw [← h2]
          · rw [← h2]
        | some e =>
          dsimp only at h
          injection h with h1 h2
          exact Option.noConfusion h1
    · rw [if_neg hdl] at h
      injection h with h1 h2
      exact Option.noConfusion h1
  · rw [if_neg hlt] at h
    injection h with h1 h2
    exact Option.noConfusion h1

/-- C3: a successful `encap` leaves the fresh private state consistent with
the updated tree: `consistent` holds, and elementwise every node with a
stored path secret is non-blank in the updated tree and its public key is
the one derived from that secret. -/
theorem claim_C3 (t : TreeKEMPublicKey) (frm : Nat)
    (context leaf_secret : Bytes) (sig_priv : SignaturePrivateKey)
    (t1 : TreeKEMPublicKey) (priv : TreeKEMPrivateKey) (path : DirectPath)
    (h : t.encap frm context leaf_secret sig_priv = .ok (t1, priv, path)) :
    priv.consistent t1 = true ∧
    ∀ e ∈ priv.path_secrets, ∃ sk nd,
      priv.private_key e.1 = some sk ∧
      t1.nodeOpt e.1 = some nd ∧
      hpkePublic sk = nd.public_key := by
  unfold TreeKEMPublicKey.encap at h
  rcases hnode : t.nodeOpt (2 * frm) with _ | (kp | pn)
  · rw [hnode] at h
    exact Except.noConfusion h
  case some.parent =>
    rw [hnode] at h
    exact Except.noConfusion h
  case some.leaf =>
    rw [hnode] at h
    dsimp only at h
    cases hloop : TreeKEMPublicKey.encapLoop t context
        (dirpath (2 * frm) t.nodeCount) (2 * frm)
        (TreeKEMPrivateKey.create t.suite t.leafCount frm leaf_secret) with
    | error e =>
      rw [hloop] at h
      exact Except.noConfusion h
    | ok pr =>
      obtain ⟨pnodes, priv1⟩ := pr
      rw [hloop] at h
      dsimp only at h
      have hdC : derivedCache
          (TreeKEMPrivateKey.create t.suite t.leafCount frm leaf_secret) :=
        derivedCache_of_nil _ (create_cache _ _ _ _)
      obtain ⟨hps, hsuite, hd1, hfa⟩ :=
        encapLoop_ok t context _ _ _ pnodes priv1 hloop hdC
      have hcr : TreeKEMPrivateKey.create t.suite t.leafCount frm leaf_secret =
          TreeKEMPrivateKey.implantGo t.suite
            (nodeChain (nodeWidth t.leafCount) (2 * frm)) leaf_secret
            { suite := t.suite, index := frm, update_secret := [],
              path_secrets := [], private_key_cache := [] } := rfl
      have hmemc : (2 * frm) ∈ nodeChain (nodeWidth t.leafCount) (2 * frm) := by
        rw [nodeChain_cons]
        exact List.mem_cons_self _ _
      obtain ⟨v, hv⟩ := implantGo_lookup_mem t.suite
        (nodeChain (nodeWidth t.leafCount) (2 * frm)) leaf_secret
        { suite := t.suite, index := frm, update_secret := [],
          path_secrets := [], private_key_cache := [] } (2 * frm) hmemc
      have hv1 : alookup priv1.path_secrets (2 * frm) = some v := by
        rw [hps, hcr]
        exact hv
      rw [private_key_mut_of_secret priv1 (2 * frm) v hd1 hv1] at h
      dsimp only at h
      cases hmrg : t.merge frm (DirectPath.signPath
          { leaf_key_package := kp, nodes := pnodes }
          (hpkePublic (hpkeDerive priv1.suite v)) sig_priv) with
      | mk oe tmm =>
        rw [hmrg] at h
        cases oe with
        | some e =>
          dsimp only at h
          exact Except.noConfusion h
        | none =>
          dsimp only at h
          injection h with h1
          injection h1 with hT h2
          injection h2 with hP hPath
          subst hT
          subst hP
          subst hPath
          obtain ⟨hlt, hsuiteT, hmp⟩ := merge_ok t frm _ tmm hmrg
          obtain ⟨hmplen, hmpoff, hmppair⟩ := mergeParents_ok
            (dirpath (2 * frm) t.nodeCount) _ _ tmm.nodes
            (dirpath_nodup _ _) hmp
          have hd2 : derivedCache { priv1 with private_key_cache := ainsert priv1.private_key_cache (2 * frm) (hpkeDerive priv1.suite v) } :=
            derivedCache_ainsert priv1 (2 * frm) v hd1 hv1
          have hchain : ∀ e : Nat × Bytes, e ∈ priv1.path_secrets →
              e.1 ∈ nodeChain (nodeWidth t.leafCount) (2 * frm) := by
            intro e he
            rw [hps, hcr] at he
            rcases implantGo_mem t.suite _ _ _ e he with h1 | h1
            · exact h1
            · exact absurd h1 (List.not_mem_nil e)
          have hnotdp : (2 * frm) ∉ dirpath (2 * frm) t.nodeCount := by
            intro hin
            have hlv := dirpath_mem_level_pos (2 * frm) hin
            rw [level_of_even (Nat.mul_mod_right 2 frm)] at hlv
            exact absurd hlv (by omega)
          have hkey : ∀ e : Nat × Bytes, e ∈ priv1.path_secrets → ∃ s ndd,
              alookup priv1.path_secrets e.1 = some s ∧
              tmm.nodeOpt e.1 = some ndd ∧
              ndd.public_key = hpkePublic (hpkeDerive priv1.suite s) := by
            intro e he
            have hc := hchain e he
            rw [nodeChain_cons] at hc
            rcases List.mem_cons.mp hc with hcl | hcd
            · refine ⟨v, Node.leaf (DirectPath.signPath
                { leaf_key_package := kp, nodes := pnodes }
                (hpkePublic (hpkeDerive priv1.suite v))
                sig_priv).leaf_key_package, ?_, ?_, ?_⟩
              · rw [hcl]
                exact hv1
              · show (tmm.nodes.getD e.1 blankNode).node = _
                rw [hcl, hmpoff _ hnotdp, getD_set_self _ _ _ _ hlt]
              · rfl
            · have hcd2 : e.1 ∈ dirpath (2 * frm) t.nodeCount := hcd
              obtain ⟨rn, hzip⟩ := mem_zip_left _ pnodes e.1 hfa.length_eq hcd2
              have hR := forall2_zip hfa (e.1, rn) hzip
              obtain ⟨s, hs1, hs2⟩ := hR
              rw [← hsuite] at hs2
              have hs1a : alookup priv1.path_secrets e.1 = some s := by
                rw [hps]
                exact hs1
              refine ⟨s, Node.parent { public_key := rn.public_key, unmerged_leaves := [], parent_hash := [] }, hs1a, ?_, ?_⟩
              · show (tmm.nodes.getD e.1 blankNode).node = _
                rw [hmppair (e.1, rn) hzip]
              · show rn.public_key = _
                exact hs2
          constructor
          · unfold TreeKEMPrivateKey.consistent
            rw [Bool.and_eq_true]
            constructor
            · rw [decide_eq_true_eq]
              show priv1.suite = tmm.suite
              rw [hsuite, hsuiteT]
              exact create_suite _ _ _ _
            · rw [List.all_eq_true]
              intro e he
              obtain ⟨s, ndd, hs1, hnd, hpk⟩ := hkey e he
              have hpkk := privkey_of_secret { priv1 with private_key_cache := ainsert priv1.private_key_cache (2 * frm) (hpkeDerive priv1.suite v) } e.1 s hd2 hs1
              rw [hpkk, hnd]
              dsimp only
              rw [decide_eq_true_eq]
              exact hpk.symm
          · intro e he
            obtain ⟨s, ndd, hs1, hnd, hpk⟩ := hkey e he
            refine ⟨hpkeDerive priv1.suite s, ndd, ?_, hnd, hpk.symm⟩
            exact privkey_of_secret { priv1 with private_key_cache := ainsert priv1.private_key_cache (2 * frm) (hpkeDerive priv1.suite v) } e.1 s hd2 hs1

def c3kpW : KeyPackage := ⟨1, ⟨[1, 1, 5]⟩, ⟨[], 0, []⟩, [], [1, 7, 1, 3, 1, 1, 5, 0, 0, 0]⟩

def c3T1 : TreeKEMPublicKey := ⟨1, [⟨some (Node.leaf c3kpW)⟩]⟩

def c3Priv : TreeKEMPrivateKey := ⟨1, 0, [], [(0, [5])], [(0, ⟨[1, 5]⟩)]⟩

theorem claim_C3_witness :
    c3Priv.consistent c3T1 = true ∧
    ∀ e ∈ c3Priv.path_secrets, ∃ sk nd,
      c3Priv.private_key e.1 = some sk ∧
      c3T1.nodeOpt e.1 = some nd ∧
      hpkePublic sk = nd.public_key :=
  claim_C3 tOne 0 [] [5] ⟨[7]⟩ c3T1 c3Priv ⟨c3kpW, []⟩ (by decide)

theorem encFixedBytes_length : ∀ (w n : Nat), (encFixedBytes w n).length = w := by
  intro w
  induction w with
  | zero => intro n; rfl
  | succ w ih =>
    intro n
    rw [encFixedBytes]
    simp [ih]

theorem decFixed_encFixedBytes :
    ∀ (w n : Nat) (rest : Bytes),
      decFixed w (encFixedBytes w n ++ rest) = some (n % 2 ^ (8 * w), rest) := by
  intro w
  induction w with
  | zero =>
    intro n rest
    simp [encFixedBytes, decFixed, Nat.mod_one]
  | succ w ih =>
    intro n rest
    rw [encFixedBytes, List.cons_append, decFixed, ih n rest]
    dsimp only
    congr 2
    have h28 : (256 : Nat) = 2 ^ 8 := by norm_num
    rw [h28, show 8 * (w + 1) = 8 * w + 8 by ring, pow_add, Nat.mod_mul]
    ring

theorem decFixed_enc (w n : Nat) (b : Bytes) (h : encFixed w n = some b) :
    ∀ rest, decFixed w (b ++ rest) = some (n, rest) := by
  intro rest
  unfold encFixed at h
  by_cases hlt : n < 2 ^ (8 * w)
  · rw [if_pos hlt] at h
    injection h with hb
    subst hb
    rw [decFixed_encFixedBytes, Nat.mod_eq_of_lt hlt]
  · rw [if_neg hlt] at h
    exact Option.noConfusion h

theorem encFixed_length (w n : Nat) (b : Bytes) (h : encFixed w n = some b) :
    b.length = w := by
  unfold encFixed at h
  by_cases hlt : n < 2 ^ (8 * w)
  · rw [if_pos hlt] at h
    injection h with hb
    subst hb
    exact encFixedBytes_length w n
  · rw [if_neg hlt] at h
    exact Option.noConfusion h

theorem decVec_enc (hw : Nat) (payload b : Bytes) (h : encVec hw payload = some b) :
    ∀ rest, decVec hw (b ++ rest) = some (payload, rest) := by
  intro rest
  unfold encVec at h
  cases h1 : encFixed hw payload.length with
  | none => rw [h1] at h; exact Option.noConfusion h
  | some hdr =>
    rw [h1] at h
    dsimp only at h
    injection h with hb
    subst hb
    unfold decVec
    rw [List.append_assoc, decFixed_enc hw payload.length hdr h1]
    dsimp only
    rw [if_pos (by simp)]
    rw [List.take_left, List.drop_left]

theorem append_ne_nil_of_left {b1 b2 : Bytes} (h : b1 ≠ []) : b1 ++ b2 ≠ [] := by
  intro hc
  rcases hb : b1 with _ | ⟨y, ys⟩
  · exact h hb
  · rw [hb, List.cons_append] at hc
    exact List.noConfusion hc

theorem encVec_ne (hw : Nat) (payload b : Bytes) (hhw : 1 ≤ hw)
    (h : encVec hw payload = some b) : b ≠ [] := by
  unfold encVec at h
  cases h1 : encFixed hw payload.length with
  | none => rw [h1] at h; exact Option.noConfusion h
  | some hdr =>
    rw [h1] at h
    dsimp only at h
    injection h with hb
    subst hb
    refine append_ne_nil_of_left ?_
    intro hc
    have hl := encFixed_length hw payload.length hdr h1
    rw [hc] at hl
    simp at hl
    omega

theorem decElems_encAll {α : Type} (enc1 : α → Option Bytes)
    (dec1 : Bytes → Option (α × Bytes))
    (hdec : ∀ x b, enc1 x = some b → ∀ rest, dec1 (b ++ rest) = some (x, rest))
    (hne : ∀ x b, enc1 x = some b → b ≠ []) :
    ∀ (xs : List α) (payload : Bytes) (f : Nat),
      encAll enc1 xs = some payload → payload.length ≤ f →
      decElems dec1 f payload = some xs := by
  intro xs
  induction xs with
  | nil =>
    intro payload f h _
    rw [encAll] at h
    injection h with hb
    subst hb
    cases f with
    | zero => rfl
    | succ f => rfl
  | cons x xs ih =>
    intro payload f h hf
    rw [encAll] at h
    cases h1 : enc1 x with
    | none => rw [h1] at h; exact Option.noConfusion h
    | some b =>
      cases h2 : encAll enc1 xs with
      | none => rw [h1, h2] at h; exact Option.noConfusion h
      | some bs =>
        rw [h1, h2] at h
        dsimp only at h
        injection h with hb
        subst hb
        cases hb2 : b with
        | nil => exact absurd hb2 (hne x b h1)
        | cons y ys =>
          have hd3 := hdec x b h1 bs
          rw [hb2, List.cons_append] at hd3
          rw [hb2] at hf
          rw [List.cons_append]
          cases f with
          | zero =>
            exfalso
            simp only [List.length_cons, List.length_append] at hf
            omega
          | succ f =>
            rw [decElems, hd3]
            dsimp only
            rw [if_pos (by simp only [List.length_cons, List.length_append]; omega)]
            rw [ih bs f h2 (by
              simp only [List.length_cons, List.length_append] at hf
              omega)]
            intro hc
            exact List.noConfusion hc

theorem decVecOf_enc {α : Type} (hw : Nat) (enc1 : α → Option Bytes)
    (dec1 : Bytes → Option (α × Bytes))
    (hdec : ∀ x b, enc1 x = some b → ∀ rest, dec1 (b ++ rest) = some (x, rest))
    (hne : ∀ x b, enc1 x = some b → b ≠ [])
    (xs : List α) (b : Bytes) (h : encVecOf hw enc1 xs = some b) :
    ∀ rest, decVecOf hw dec1 (b ++ rest) = some (xs, rest) := by
  intro rest
  unfold encVecOf at h
  cases h1 : encAll enc1 xs with
  | none => rw [h1] at h; exact Option.noConfusion h
  | some payload =>
    rw [h1] at h
    dsimp only at h
    unfold decVecOf
    rw [decVec_enc hw payload b h rest]
    dsimp only
    rw [decElems_encAll enc1 dec1 hdec hne xs payload payload.length h1 (le_refl _)]

theorem decProposalID_enc (p : ProposalID) (b : Bytes)
    (h : encProposalID p = some b) :
    ∀ rest, decProposalID (b ++ rest) = some (p, rest) := by
  intro rest
  unfold decProposalID
  rw [decVec_enc 1 p.id b h rest]

theorem encProposalID_ne (p : ProposalID) (b : Bytes)
    (h : encProposalID p = some b) : b ≠ [] :=
  encVec_ne 1 p.id b (by omega) h

theorem decExtension_enc (e : Extension) (b : Bytes)
    (h : encExtension e = some b) :
    ∀ rest, decExtension (b ++ rest) = some (e, rest) := by
  intro rest
  unfold encExtension at h
  cases h1 : encFixed 2 e.etype with
  | none => rw [h1] at h; exact Option.noConfusion h
  | some bt =>
    cases h2 : encVec 2 e.edata with
    | none => rw [h1, h2] at h; exact Option.noConfusion h
    | some bd =>
      rw [h1, h2] at h
      dsimp only at h
      injection h with hb
      subst hb
      unfold decExtension
      rw [List.append_assoc, decFixed_enc 2 e.etype bt h1]
      dsimp only
      rw [decVec_enc 2 e.edata bd h2]

theorem encExtension_ne (e : Extension) (b : Bytes)
    (h : encExtension e = some b) : b ≠ [] := by
  unfold encExtension at h
  cases h1 : encFixed 2 e.etype with
  | none => rw [h1] at h; exact Option.noConfusion h
  | some bt =>
    cases h2 : encVec 2 e.edata with
    | none => rw [h1, h2] at h; exact Option.noConfusion h
    | some bd =>
      rw [h1, h2] at h
      dsimp only at h
      injection h with hb
      subst hb
      refine append_ne_nil_of_left ?_
      intro hc
      have hl := encFixed_length 2 e.etype bt h1
      rw [hc] at hl
      simp at hl

theorem decCredential_enc (c : Credential) (b : Bytes)
    (h : encCredential c = some b) :
    ∀ rest, decCredential (b ++ rest) = some (c, rest) := by
  intro rest
  unfold encCredential at h
  cases h1 : encVec 2 c.identity with
  | none => rw [h1] at h; exact Option.noConfusion h
  | some bi =>
    cases h2 : encFixed 2 c.scheme with
    | none => rw [h1, h2] at h; exact Option.noConfusion h
    | some bs2 =>
      cases h3 : encVec 2 c.public_key with
      | none => rw [h1, h2, h3] at h; exact Option.noConfusion h
      | some bp =>
        rw [h1, h2, h3] at h
        dsimp only at h
        injection h with hb
        subst hb
        simp only [List.cons_append, List.append_assoc]
        rw [decCredential]
        rw [decVec_enc 2 c.identity bi h1]
        dsimp only
        rw [decFixed_enc 2 c.scheme bs2 h2]
        dsimp only
        rw [decVec_enc 2 c.public_key bp h3]

theorem decKeyPackage_enc (kp : KeyPackage) (b : Bytes)
    (h : encKeyPackage kp = some b) :
    ∀ rest, decKeyPackage (b ++ rest) = some (kp, rest) := by
  intro rest
  unfold encKeyPackage at h
  cases h1 : encFixed 2 kp.cipher_suite with
  | none => rw [h1] at h; exact Option.noConfusion h
  | some b1 =>
    cases h2 : encVec 2 kp.init_key.data with
    | none => rw [h1, h2] at h; exact Option.noConfusion h
    | some b2 =>
      cases h3 : encCredential kp.credential with
      | none => rw [h1, h2, h3] at h; exact Option.noConfusion h
      | some b3 =>
        cases h4 : encVecOf 2 encExtension kp.extensions with
        | none => rw [h1, h2, h3, h4] at h; exact Option.noConfusion h
        | some b4 =>
          cases h5 : encVec 2 kp.signature with
          | none => rw [h1, h2, h3, h4, h5] at h; exact Option.noConfusion h
          | some b5 =>
            rw [h1, h2, h3, h4, h5] at h
            dsimp only at h
            injection h with hb
            subst hb
            simp only [List.append_assoc]
            unfold decKeyPackage
            rw [decFixed_enc 2 kp.cipher_suite b1 h1]
            dsimp only
            rw [decVec_enc 2 kp.init_key.data b2 h2]
            dsimp only
            rw [decCredential_enc kp.credential b3 h3]
            dsimp only
            rw [decVecOf_enc 2 encExtension decExtension decExtension_enc
              encExtension_ne kp.extensions b4 h4]
            dsimp only
            rw [decVec_enc 2 kp.signature b5 h5]

theorem decHPKECiphertext_enc (c : HPKECiphertext) (b : Bytes)
    (h : encHPKECiphertext c = some b) :
    ∀ rest, decHPKECiphertext (b ++ rest) = some (c, rest) := by
  intro rest
  unfold encHPKECiphertext at h
  cases h1 : encVec 2 c.kem_output with
  | none => rw [h1] at h; exact Option.noConfusion h
  | some b1 =>
    cases h2 : encVec 2 c.ciphertext with
    | none => rw [h1, h2] at h; exact Option.noConfusion h
    | some b2 =>
      rw [h1, h2] at h
      dsimp only at h
      injection h with hb
      subst hb
      unfold decHPKECiphertext
      rw [List.append_assoc, decVec_enc 2 c.kem_output b1 h1]
      dsimp only
      rw [decVec_enc 2 c.ciphertext b2 h2]

theorem encHPKECiphertext_ne (c : HPKECiphertext) (b : Bytes)
    (h : encHPKECiphertext c = some b) : b ≠ [] := by
  unfold encHPKECiphertext at h
  cases h1 : encVec 2 c.kem_output with
  | none => rw [h1] at h; exact Option.noConfusion h
  | some b1 =>
    cases h2 : encVec 2 c.ciphertext with
    | none => rw [h1, h2] at h; exact Option.noConfusion h
    | some b2 =>
      rw [h1, h2] at h
      dsimp only at h
      injection h with hb
      subst hb
      exact append_ne_nil_of_left (encVec_ne 2 c.kem_output b1 (by omega) h1)

theorem decRatchetNode_enc (rn : RatchetNode) (b : Bytes)
    (h : encRatchetNode rn = some b) :
    ∀ rest, decRatchetNode (b ++ rest) = some (rn, rest) := by
  intro rest
  unfold encRatchetNode at h
  cases h1 : encVec 2 rn.public_key.data with
  | none => rw [h1] at h; exact Option.noConfusion h
  | some b1 =>
    cases h2 : encVecOf 2 encHPKECiphertext rn.node_secrets with
    | none => rw [h1, h2] at h; exact Option.noConfusion h
    | some b2 =>
      rw [h1, h2] at h
      dsimp only at h
      injection h with hb
      subst hb
      unfold decRatchetNode
      rw [List.append_assoc, decVec_enc 2 rn.public_key.data b1 h1]
      dsimp only
      rw [decVecOf_enc 2 encHPKECiphertext decHPKECiphertext
        decHPKECiphertext_enc encHPKECiphertext_ne rn.node_secrets b2 h2]

theorem encRatchetNode_ne (rn : RatchetNode) (b : Bytes)
    (h : encRatchetNode rn = some b) : b ≠ [] := by
  unfold encRatchetNode at h
  cases h1 : encVec 2 rn.public_key.data with
  | none => rw [h1] at h; exact Option.noConfusion h
  | some b1 =>
    cases h2 : encVecOf 2 encHPKECiphertext rn.node_secrets with
    | none => rw [h1, h2] at h; exact Option.noConfusion h
    | some b2 =>
      rw [h1, h2] at h
      dsimp only at h
      injection h with hb
      subst hb
      exact append_ne_nil_of_left (encVec_ne 2 rn.public_key.data b1 (by omega) h1)

theorem decDirectPath_enc (p : DirectPath) (b : Bytes)
    (h : encDirectPath p = some b) :
    ∀ rest, decDirectPath (b ++ rest) = some (p, rest) := by
  intro rest
  unfold encDirectPath at h
  cases h1 : encKeyPackage p.leaf_key_package with
  | none => rw [h1] at h; exact Option.noConfusion h
  | some b1 =>
    cases h2 : encVecOf 2 encRatchetNode p.nodes with
    | none => rw [h1, h2] at h; exact Option.noConfusion h
    | some b2 =>
      rw [h1, h2] at h
      dsimp only at h
      injection h with hb
      subst hb
      unfold decDirectPath
      rw [List.append_assoc, decKeyPackage_enc p.leaf_key_package b1 h1]
      dsimp only
      rw [decVecOf_enc 2 encRatchetNode decRatchetNode decRatchetNode_enc
        encRatchetNode_ne p.nodes b2 h2]

theorem decCommit_enc (c : Commit) (b : Bytes) (h : encCommit c = some b) :
    ∀ rest, decCommit (b ++ rest) = some (c, rest) := by
  intro rest
  unfold encCommit at h
  cases h1 : encVecOf 2 encProposalID c.updates with
  | none => rw [h1] at h; exact Option.noConfusion h
  | some b1 =>
    cases h2 : encVecOf 2 encProposalID c.removes with
    | none => rw [h1, h2] at h; exact Option.noConfusion h
    | some b2 =>
      cases h3 : encVecOf 2 encProposalID c.adds with
      | none => rw [h1, h2, h3] at h; exact Option.noConfusion h
      | some b3 =>
        cases h4 : encDirectPath c.path with
        | none => rw [h1, h2, h3, h4] at h; exact Option.noConfusion h
        | some b4 =>
          rw [h1, h2, h3, h4] at h
          dsimp only at h
          injection h with hb
          subst hb
          simp only [List.append_assoc]
          unfold decCommit
          rw [decVecOf_enc 2 encProposalID decProposalID decProposalID_enc
            encProposalID_ne c.updates b1 h1]
          dsimp only
          rw [decVecOf_enc 2 encProposalID decProposalID decProposalID_enc
            encProposalID_ne c.removes b2 h2]
          dsimp only
          rw [decVecOf_enc 2 encProposalID decProposalID decProposalID_enc
            encProposalID_ne c.adds b3 h3]
          dsimp only
          rw [decDirectPath_enc c.path b4 h4]

theorem decProposal_enc (p : Proposal) (b : Bytes) (h : encProposal p = some b) :
    ∀ rest, decProposal (b ++ rest) = some (p, rest) := by
  intro rest
  cases p with
  | add kp =>
    unfold encProposal at h
    dsimp only at h
    cases h1 : encKeyPackage kp with
    | none => rw [h1] at h; exact Option.noConfusion h
    | some b1 =>
      rw [h1] at h
      dsimp only at h
      injection h with hb
      subst hb
      rw [List.cons_append, decProposal]
      rw [decKeyPackage_enc kp b1 h1]
  | update kp =>
    unfold encProposal at h
    dsimp only at h
    cases h1 : encKeyPackage kp with
    | none => rw [h1] at h; exact Option.noConfusion h
    | some b1 =>
      rw [h1] at h
      dsimp only at h
      injection h with hb
      subst hb
      rw [List.cons_append, decProposal]
      rw [decKeyPackage_enc kp b1 h1]
  | remove i =>
    unfold encProposal at h
    dsimp only at h
    cases h1 : encFixed 4 i with
    | none => rw [h1] at h; exact Option.noConfusion h
    | some b1 =>
      rw [h1] at h
      dsimp only at h
      injection h with hb
      subst hb
      rw [List.cons_append, decProposal]
      rw [decFixed_enc 4 i b1 h1]

theorem decApplicationData_enc (a : ApplicationData) (b : Bytes)
    (h : encApplicationData a = some b) :
    ∀ rest, decApplicationData (b ++ rest) = some (a, rest) := by
  intro rest
  unfold decApplicationData
  rw [decVec_enc 4 a.data b h rest]

theorem decCommitData_enc (c : CommitData) (b : Bytes)
    (h : encCommitData c = some b) :
    ∀ rest, decCommitData (b ++ rest) = some (c, rest) := by
  intro rest
  unfold encCommitData at h
  cases h1 : encCommit c.commit with
  | none => rw [h1] at h; exact Option.noConfusion h
  | some b1 =>
    cases h2 : encVec 1 c.confirmation with
    | none => rw [h1, h2] at h; exact Option.noConfusion h
    | some b2 =>
      rw [h1, h2] at h
      dsimp only at h
      injection h with hb
      subst hb
      unfold decCommitData
      rw [List.append_assoc, decCommit_enc c.commit b1 h1]
      dsimp only
      rw [decVec_enc 1 c.confirmation b2 h2]

theorem decContent_enc (c : Content) (b : Bytes) (h : encContent c = some b) :
    ∀ rest, decContent c.ctype (b ++ rest) = some (c, rest) := by
  intro rest
  cases c with
  | application a =>
    show decContent ContentType.application (b ++ rest) = _
    unfold decContent
    rw [decApplicationData_enc a b h rest]
  | proposal p =>
    show decContent ContentType.proposal (b ++ rest) = _
    unfold decContent
    rw [decProposal_enc p b h rest]
  | commit cd =>
    show decContent ContentType.commit (b ++ rest) = _
    unfold decContent
    rw [decCommitData_enc cd b h rest]

/-- C9: `marshal_content` followed by the content-parsing constructor (with
the same group id, epoch, sender, content type and authenticated data)
reproduces the original content and signature, for any padding size and
all three content variants. -/
theorem claim_C9 (p : MLSPlaintext) (padding_size : Nat) (b : Bytes)
    (h : p.marshal_content padding_size = some b) :
    parsePlaintext p.group_id p.epoch p.sender p.content.ctype
      p.authenticated_data b =
      some { group_id := p.group_id, epoch := p.epoch, sender := p.sender,
             authenticated_data := p.authenticated_data,
             content := p.content, signature := p.signature } := by
  unfold MLSPlaintext.marshal_content at h
  cases h1 : encContent p.content with
  | none => rw [h1] at h; exact Option.noConfusion h
  | some body =>
    cases h2 : encVec 2 p.signature with
    | none => rw [h1, h2] at h; exact Option.noConfusion h
    | some sigb =>
      cases h3 : encVec 2 (List.replicate padding_size 0) with
      | none => rw [h1, h2, h3] at h; exact Option.noConfusion h
      | some padb =>
        rw [h1, h2, h3] at h
        dsimp only at h
        injection h with hb
        subst hb
        unfold parsePlaintext
        rw [List.append_assoc, decContent_enc p.content body h1 (sigb ++ padb)]
        dsimp only
        rw [decVec_enc 2 p.signature sigb h2 padb]
        dsimp only
        have h3a := decVec_enc 2 (List.replicate padding_size 0) padb h3 []
        rw [List.append_nil] at h3a
        rw [h3a]

def c9P : MLSPlaintext := ⟨[1], 2, 3, [4], .application ⟨[9]⟩, [8]⟩

theorem claim_C9_witness :
    parsePlaintext c9P.group_id c9P.epoch c9P.sender c9P.content.ctype
      c9P.authenticated_data [0, 0, 0, 1, 9, 0, 1, 8, 0, 2, 0, 0] =
      some { group_id := c9P.group_id, epoch := c9P.epoch, sender := c9P.sender,
             authenticated_data := c9P.authenticated_data,
             content := c9P.content, signature := c9P.signature } :=
  claim_C9 c9P 2 [0, 0, 0, 1, 9, 0, 1, 8, 0, 2, 0, 0] (by decide)

end MLS
